import Mathlib

/-!
# NCG++ : `odd_clifford_group.cpp`

A shallow embedding of the combinatorial core of `odd_clifford_group.cpp`
(`factorial`, `binomial`, `combination`, `count_Hs_and_Ls`, `antisymmetrise`,
`OddCliffordGroup::generate_odd_clifford_group_`) together with theorems about it.

Conventions of the embedding

* `uint64_t` values are natural numbers reduced modulo `2^64`;
* `int` values are integers, every arithmetic result being reduced to the
  signed 32-bit range by `wrapInt`;
* a `std::vector<int>` is a `List Int`; `operator[]` outside the vector is the
  fault `Fault.outOfBounds`;
* code that can fail returns `Except Fault _`;
* a loop whose number of iterations is not fixed in advance carries an iteration budget;
  `combination_ne_outOfFuel` and `antisymmetrise_ne_outOfFuel` show that the budgets of
  `combination` and `antisymmetrise` are never used up, and `countLoop_spec` that the loop of
  `count_Hs_and_Ls` returns within its budget.
-/

namespace NCG

/-! ## Machine integers and faults -/

/-- Ways in which the C++ code can fail to return a value. -/
inductive Fault where
  /-- An `assert` does not hold. -/
  | assertion
  /-- An `operator[]` (or `front()`) outside the bounds of a `std::vector`. -/
  | outOfBounds
  /-- An integer division whose divisor is zero. -/
  | divByZero
  /-- A `std::vector` constructed with a negative (hence huge unsigned) length. -/
  | badLength
  /-- The iteration budget of a modelled loop is used up. -/
  | outOfFuel
  deriving DecidableEq, Repr

/-- The modulus of `uint64_t` arithmetic. -/
def U64 : Nat := 2 ^ 64

/-- Reduction of an integer to the range of a 32-bit signed `int`. -/
def wrapInt (x : Int) : Int := (x + 2 ^ 31) % 2 ^ 32 - 2 ^ 31

/-- Conversion `int → uint64_t`. -/
def toU64 (x : Int) : Nat := (x % 2 ^ 64).toNat

/-- Conversion `uint64_t → int`. -/
def u64ToInt (n : Nat) : Int := wrapInt (n : Int)

/-! ## `factorial` and `binomial` (lines 92-103) -/

/-- The function `factorial`: `if (n == 0 || n == 1) return 1; else return n * factorial(n-1);`
over `uint64_t`. The value of the recursion is modelled, not the depth of the call stack. -/
def factorial : Nat → Nat
  | 0 => 1
  | n + 1 => if n + 1 = 1 then 1 else ((n + 1) * factorial n) % U64

/-- The function `binomial`: `factorial(a) / (factorial(b) * factorial(a-b))` over `uint64_t`;
the subtraction `a - b` wraps, and a zero divisor is a fault. -/
def binomial (a b : Nat) : Except Fault Nat :=
  let den := (factorial b * factorial ((a + U64 - b) % U64)) % U64
  if den = 0 then .error .divByZero else .ok (factorial a / den)

/-! ## `combination` (lines 108-143) -/

/-- Read `v[i]` where the index expression `i` has type `int`. -/
def vecGet (v : List Int) (i : Int) : Except Fault Int :=
  if 0 ≤ i then
    match v.get? i.toNat with
    | some x => .ok x
    | none => .error .outOfBounds
  else .error .outOfBounds

/-- Write `v[i] = x` where the index expression `i` has type `int`. -/
def vecSet (v : List Int) (i : Int) (x : Int) : Except Fault (List Int) :=
  if 0 ≤ i ∧ i.toNat < v.length then .ok (v.set i.toNat x) else .error .outOfBounds

/-- The body and test of the `do { ... } while (k <= num_comb)` loop at position `i`
(lines 127-132), on the state `(combinations, k)`; it returns the state after the loop
together with the last value of `r`. The first argument is the iteration budget. -/
def searchLoop (upper num_elems num_comb : Int) (i : Int) :
    Nat → List Int → Int → Except Fault (List Int × Int × Int)
  | 0, _, _ => .error .outOfFuel
  | fuel + 1, v, k => do
    let c ← vecGet v i
    let v1 ← vecSet v i (wrapInt (c + 1))
    let c1 ← vecGet v1 i
    let r ← binomial (toU64 (wrapInt (upper - c1))) (toU64 (wrapInt (num_elems - wrapInt (i + 1))))
    let r1 := u64ToInt r
    let k1 := wrapInt (k + r1)
    if k1 ≤ num_comb then searchLoop upper num_elems num_comb i fuel v1 k1
    else .ok (v1, k1, r1)

/-- The `for (auto i = 0; i < num_elems - 1; ++i)` loop (lines 123-135), which runs for
`i = 0, ..., num_elems - 2`: `todo` is the number of iterations still to run, `i` the loop
counter. Each search is given `upper + 1` iterations. -/
def forLoop (upper num_elems num_comb : Int) :
    Nat → Int → List Int → Int → Int → Except Fault (List Int × Int × Int)
  | 0, _, v, k, r => .ok (v, k, r)
  | todo + 1, i, v, k, _ => do
    let start ← (if i ≠ 0 then vecGet v (wrapInt (i - 1)) else Except.ok 0)
    let v0 ← vecSet v i start
    let (v1, k1, r1) ← searchLoop upper num_elems num_comb i (upper.toNat + 1) v0 k
    forLoop upper num_elems num_comb todo (wrapInt (i + 1)) v1 (wrapInt (k1 - r1)) r1

/-- Lines 137-142 of `combination`: the final position is computed from the previous one,
then every value is decreased by one. -/
def lastStep (num_elems num_comb : Int) (v : List Int) (k : Int) : Except Fault (List Int) := do
  let last ← vecGet v (wrapInt (num_elems - 2))
  let v2 ← vecSet v (wrapInt (num_elems - 1))
    (wrapInt (wrapInt (wrapInt (last + num_comb) + 1) - k))
  .ok (v2.map fun c => wrapInt (c - 1))

/-- The function `combination(upper, num_elems, num_comb)`. A negative `num_elems` makes the
constructor of the working vector throw. -/
def combination (upper num_elems num_comb : Int) : Except Fault (List Int) :=
  if num_elems = 0 then .ok []
  else if num_elems < 0 then .error .badLength
  else do
    let v := List.replicate num_elems.toNat (0 : Int)
    let (v1, k, _) ← forLoop upper num_elems num_comb (num_elems.toNat - 1) 0 v 0 0
    lastStep num_elems num_comb v1 k

/-! ## `antisymmetrise` (lines 170-245) -/

/-- Modelled from the spec: the class `GammaMatrix` of `gamma_matrix.hpp` is not part of the
sources; the spec describes it as a square array over a numeric field, of a fixed dimension
shared by every matrix of a run, with addition, subtraction, multiplication and division by a
positive integer scalar. -/
abbrev GammaMatrix (K : Type) (dim : Nat) : Type := Matrix (Fin dim) (Fin dim) K

/-- Modelled from the spec: `Unity(k)`, the identity matrix of dimension `k`. -/
def Unity (K : Type) [Field K] (dim : Nat) : GammaMatrix K dim := 1

/-- Modelled from the spec: `commutator(A, B)`, the matrix `A*B - B*A`. -/
def commutator {K : Type} [Field K] {dim : Nat} (A B : GammaMatrix K dim) : GammaMatrix K dim :=
  A * B - B * A

/-- Modelled from the spec: `matrix / m`, division of a matrix by an unsigned integer scalar. -/
def scalarDiv {K : Type} [Field K] {dim : Nat} (A : GammaMatrix K dim) (m : Nat) :
    GammaMatrix K dim :=
  ((m : K))⁻¹ • A

/-- Modelled from the spec: the constructor `GammaMatrix matrix(k)`, taken to be the zero matrix
of dimension `k`, from which the sum of the spec's formula starts. -/
def zeroMatrix (K : Type) [Field K] (dim : Nat) : GammaMatrix K dim := 0

/-- Read `gammas[index]` where `index` has type `int` (converted to `size_t`). -/
def gammaGet {K : Type} {dim : Nat} (gammas : List (GammaMatrix K dim)) (index : Int) :
    Except Fault (GammaMatrix K dim) :=
  match gammas.get? (toU64 index) with
  | some g => .ok g
  | none => .error .outOfBounds

/-- Read `sequence[i]` for an unsigned position `i`. -/
def seqGet (sequence : List Int) (i : Nat) : Except Fault Int :=
  match sequence.get? i with
  | some x => .ok x
  | none => .error .outOfBounds

/-- The loop `for (auto i = 0; i < num_indices; ++i)` of lines 222-238: `todo` iterations are
still to run, `i` is the loop counter, `matrix` the accumulator and `self` the recursive call. -/
def antisymLoop {K : Type} [Field K] {dim : Nat} (gammas : List (GammaMatrix K dim))
    (self : List Int → Except Fault (GammaMatrix K dim)) (sequence : List Int) :
    Nat → Nat → GammaMatrix K dim → Except Fault (GammaMatrix K dim)
  | 0, _, matrix => .ok matrix
  | todo + 1, i, matrix => do
    let new_sequence := sequence.eraseIdx i
    let buffer1 ← self new_sequence
    let index ← seqGet sequence i
    let g ← gammaGet gammas index
    let buffer2 := g * buffer1
    let matrix1 := if i % 2 = 0 then matrix + buffer2 else matrix - buffer2
    antisymLoop gammas self sequence todo (i + 1) matrix1

/-- The function `antisymmetrise`, with the depth of the recursion bounded by `depth`:
`gammas.front()` is evaluated first (a fault for an empty list), then the two assertions, then
the cases `num_indices = 0, 1, 2` and the recursive case. -/
def antisymmetriseAux {K : Type} [Field K] {dim : Nat} (gammas : List (GammaMatrix K dim)) :
    Nat → List Int → Except Fault (GammaMatrix K dim)
  | depth, sequence =>
    let num_indices := sequence.length
    let d := gammas.length
    match gammas with
    | [] => .error .outOfBounds
    | _ :: _ =>
      if ¬ num_indices ≤ d then .error .assertion
      else if ¬ sequence.all (fun x => decide (toU64 x ≤ d)) then .error .assertion
      else if num_indices = 0 then .ok (Unity K dim)
      else if num_indices = 1 then do
        let index ← seqGet sequence 0
        gammaGet gammas index
      else if num_indices = 2 then do
        let index1 ← seqGet sequence 0
        let index2 ← seqGet sequence 1
        let g1 ← gammaGet gammas index1
        let g2 ← gammaGet gammas index2
        .ok (commutator g1 g2)
      else
        match depth with
        | 0 => .error .outOfFuel
        | depth + 1 => do
          let matrix ← antisymLoop gammas (antisymmetriseAux gammas depth) sequence
            num_indices 0 (zeroMatrix K dim)
          .ok (scalarDiv matrix (2 * num_indices))

/-- The function `antisymmetrise(gammas, sequence)`: every recursive call is made on a sequence
one shorter, so the length of the sequence bounds the depth of the recursion. -/
def antisymmetrise {K : Type} [Field K] {dim : Nat} (gammas : List (GammaMatrix K dim))
    (sequence : List Int) : Except Fault (GammaMatrix K dim) :=
  antisymmetriseAux gammas sequence.length sequence

/-! ## `OddCliffordGroup::generate_odd_clifford_group_` (lines 41-73) -/

/-- Modelled from the spec: the method `CliffordAlgebra::antisymmetric_product` of
`clifford_algebra.hpp`, which is not part of the sources; the spec describes it as the
antisymmetrised product over the base generators, `antisymmetrise(small_gammas, sequence)`. -/
def antisymmetric_product {K : Type} [Field K] {dim : Nat}
    (small_gammas : List (GammaMatrix K dim)) (index_sequence : List Int) :
    Except Fault (GammaMatrix K dim) :=
  antisymmetrise small_gammas index_sequence

/-- The inner loop `for (auto num_comb = 0; num_comb < num_matrices; ++num_comb)` of lines
56-66; the first argument after `num_matrices` is the iteration budget. -/
def rankLoop {K : Type} [Field K] {dim : Nat} (small_gammas : List (GammaMatrix K dim))
    (d : Nat) (num_indices : Int) (num_matrices : Nat) :
    Nat → Int → List (GammaMatrix K dim) → Except Fault (List (GammaMatrix K dim))
  | 0, _, _ => .error .outOfFuel
  | fuel + 1, num_comb, big_gammas =>
    if toU64 num_comb < num_matrices then do
      let index_sequence ← combination (u64ToInt d) num_indices num_comb
      let matrix ← antisymmetric_product small_gammas index_sequence
      rankLoop small_gammas d num_indices num_matrices fuel (wrapInt (num_comb + 1))
        (big_gammas ++ [matrix])
    else .ok big_gammas

/-- The outer loop `for (auto num_indices = 0; num_indices <= d; num_indices += 1)` of lines
49-67; the first argument after `d` is the iteration budget. -/
def sizeLoop {K : Type} [Field K] {dim : Nat} (small_gammas : List (GammaMatrix K dim))
    (d : Nat) :
    Nat → Int → List (GammaMatrix K dim) → Except Fault (List (GammaMatrix K dim))
  | 0, _, _ => .error .outOfFuel
  | fuel + 1, num_indices, big_gammas =>
    if toU64 num_indices ≤ d then do
      let num_matrices ← binomial d (toU64 num_indices)
      let big1 ← rankLoop small_gammas d num_indices num_matrices (num_matrices + 1) 0
        big_gammas
      sizeLoop small_gammas d fuel (wrapInt (num_indices + 1)) big1
    else .ok big_gammas

/-- The function `generate_odd_clifford_group_`, for the base generators `small_gammas` of the
Clifford algebra of the signature (`d = small_gammas.size()` of them). -/
def generate_odd_clifford_group_ {K : Type} [Field K] {dim : Nat}
    (small_gammas : List (GammaMatrix K dim)) : Except Fault (List (GammaMatrix K dim)) :=
  sizeLoop small_gammas small_gammas.length (small_gammas.length + 2) 0 []

/-! ## `combination` with a log of its `binomial` calls -/

/-- One call `binomial(a, b)` made on line 130 of `combination`: the position `i` of the
`for` loop, the value of `combinations[i]` at the call, and the two arguments. -/
structure BinomialCall where
  pos : Int
  cand : Int
  a : Nat
  b : Nat

/-- The loop of `searchLoop`, which in addition appends every call of `binomial` it makes to
the log `tr`. -/
def searchLoopLog (upper num_elems num_comb : Int) (i : Int) :
    Nat → List Int → Int → List BinomialCall →
      Except Fault ((List Int × Int × Int) × List BinomialCall)
  | 0, _, _, _ => .error .outOfFuel
  | fuel + 1, v, k, tr => do
    let c ← vecGet v i
    let v1 ← vecSet v i (wrapInt (c + 1))
    let c1 ← vecGet v1 i
    let r ← binomial (toU64 (wrapInt (upper - c1))) (toU64 (wrapInt (num_elems - wrapInt (i + 1))))
    let r1 := u64ToInt r
    let k1 := wrapInt (k + r1)
    if k1 ≤ num_comb then
      searchLoopLog upper num_elems num_comb i fuel v1 k1
        (tr ++ [BinomialCall.mk i c1 (toU64 (wrapInt (upper - c1)))
          (toU64 (wrapInt (num_elems - wrapInt (i + 1))))])
    else .ok ((v1, k1, r1),
        tr ++ [BinomialCall.mk i c1 (toU64 (wrapInt (upper - c1)))
          (toU64 (wrapInt (num_elems - wrapInt (i + 1))))])

/-- The loop of `forLoop`, with the log of the `binomial` calls. -/
def forLoopLog (upper num_elems num_comb : Int) :
    Nat → Int → List Int → Int → Int → List BinomialCall →
      Except Fault ((List Int × Int × Int) × List BinomialCall)
  | 0, _, v, k, r, tr => .ok ((v, k, r), tr)
  | todo + 1, i, v, k, _, tr => do
    let start ← (if i ≠ 0 then vecGet v (wrapInt (i - 1)) else Except.ok 0)
    let v0 ← vecSet v i start
    let ((v1, k1, r1), tr1) ← searchLoopLog upper num_elems num_comb i (upper.toNat + 1) v0 k tr
    forLoopLog upper num_elems num_comb todo (wrapInt (i + 1)) v1 (wrapInt (k1 - r1)) r1 tr1

/-- The function `combination`, returning with its result the log of all the calls of
`binomial` made on the way. -/
def combinationLog (upper num_elems num_comb : Int) :
    Except Fault (List Int × List BinomialCall) :=
  if num_elems = 0 then .ok ([], [])
  else if num_elems < 0 then .error .badLength
  else do
    let v := List.replicate num_elems.toNat (0 : Int)
    let ((v1, k, _), tr) ← forLoopLog upper num_elems num_comb (num_elems.toNat - 1) 0 v 0 0 []
    let res ← lastStep num_elems num_comb v1 k
    .ok (res, tr)

/-! ## `count_Hs_and_Ls` (lines 146-167) -/

/-- The loop `for (int i = 0; i < n; ++i) if (sequence[i] >= p) exp++;` of lines 159-162: the
first argument after `n` is the iteration budget, `i` is the loop counter (an `int`, compared
with the `size_t` value `n`) and `exp` the `size_t` exponent. -/
def countLoop (sequence : List Int) (p : Int) (n : Nat) : Nat → Int → Nat → Except Fault Nat
  | 0, _, _ => .error .outOfFuel
  | fuel + 1, i, exp =>
    if toU64 i < n then do
      let x ← vecGet sequence i
      let exp1 := if x ≥ p then (exp + 1) % U64 else exp
      countLoop sequence p n fuel (wrapInt (i + 1)) exp1
    else .ok exp

/-- The function `count_Hs_and_Ls`; the result is the pair of the counters `(num_H, num_L)`
after the call. The code does not use its parameter `q`. -/
def count_Hs_and_Ls (sequence : List Int) (p _q : Int) (num_H num_L : Int) :
    Except Fault (Int × Int) :=
  let n := sequence.length
  if n = 1 then do
    let x ← vecGet sequence 0
    if x < p then .ok (wrapInt (num_H + 1), num_L) else .ok (num_H, wrapInt (num_L + 1))
  else do
    let exp0 := ((n + U64 - 1) % U64 * n) % U64 / 2
    let exp ← countLoop sequence p n (n + 1) 0 exp0
    if exp % 2 = 0 then .ok (wrapInt (num_H + 1), num_L) else .ok (num_H, wrapInt (num_L + 1))

/-! ## Reference objects of the specification -/

/-- All strictly increasing sequences of `n` integers taken from `lo, lo+1, ..., lo+w-1`, in
ascending lexicographic order: first those that start with `lo`, then the others. -/
def lexCombos (lo : Int) : Nat → Nat → List (List Int)
  | _, 0 => [[]]
  | 0, _ + 1 => []
  | w + 1, n + 1 =>
    (lexCombos (lo + 1) w n).map (fun t => lo :: t) ++ lexCombos (lo + 1) w (n + 1)

/-- The sequence `t` is a strictly increasing sequence of exactly `size` values of
`0, ..., upper-1`. -/
def IsCombo (upper size : Nat) (t : List Int) : Prop :=
  t.length = size ∧ t.Sorted (· < ·) ∧ ∀ x ∈ t, 0 ≤ x ∧ x < (upper : Int)

/-- The precondition of `antisymmetrise`: the sequence has at most `d` entries and each entry
is an `int` that is an index below `d`. -/
def ValidSeq (d : Nat) (s : List Int) : Prop :=
  s.length ≤ d ∧ ∀ x ∈ s, 0 ≤ x ∧ x < (d : Int) ∧ x < 2 ^ 31

/-- The base matrix `gammas[x]`, and the zero matrix for an index outside the list. -/
def gammaAt {K : Type} [Field K] {dim : Nat} (gammas : List (GammaMatrix K dim)) (x : Int) :
    GammaMatrix K dim :=
  gammas.getD x.toNat 0

/-- The matrix returned by `antisymmetrise`, and the zero matrix when it returns none. -/
def asymValue {K : Type} [Field K] {dim : Nat} (gammas : List (GammaMatrix K dim))
    (s : List Int) : GammaMatrix K dim :=
  match antisymmetrise gammas s with
  | .ok m => m
  | .error _ => 0

/-- The sequence `s` with the entries at positions `i` and `j` exchanged. -/
def swapAt (s : List Int) (i j : Nat) : List Int :=
  (s.set i (s.getD j 0)).set j (s.getD i 0)

/-- The sequence `lo, lo+1, ..., lo+n-1`. -/
def consecutive (lo : Int) : Nat → List Int
  | 0 => []
  | n + 1 => lo :: consecutive (lo + 1) n

/-- The signed sum over all permutations `σ` of the ordered products
`f (σ 0) * f (σ 1) * ... * f (σ (n-1))`. -/
def permProdSum (K : Type) {R : Type} [Field K] [Ring R] [Algebra K R] {n : Nat}
    (f : Fin n → R) : R :=
  ∑ σ : Equiv.Perm (Fin n),
    (((Equiv.Perm.sign σ : ℤˣ) : ℤ) : K) • (List.ofFn fun k => f (σ k)).prod

/-- The constant `c_n = 8 / (2^n * n!)` of the closed form of `antisymmetrise`. -/
def asymCoeff (K : Type) [Field K] (n : Nat) : K :=
  8 / (2 ^ n * (n.factorial : K))

/-! ## Machine arithmetic without overflow -/

theorem wrapInt_eq (x : Int) (h1 : -2 ^ 31 ≤ x) (h2 : x < 2 ^ 31) : wrapInt x = x := by
  unfold wrapInt
  rw [Int.emod_eq_of_lt (by omega) (by omega)]
  omega

theorem toU64_natCast (n : Nat) (h : n < 2 ^ 64) : toU64 (n : Int) = n := by
  unfold toU64
  rw [Int.emod_eq_of_lt (by omega) (by omega)]
  simp

theorem u64ToInt_eq (n : Nat) (h : n < 2 ^ 31) : u64ToInt n = (n : Int) := by
  unfold u64ToInt
  exact wrapInt_eq _ (by omega) (by omega)

/-! ## `factorial` and `binomial` -/

theorem factorial_eq_mod (n : Nat) : factorial n = n.factorial % U64 := by
  induction n with
  | zero => simp [factorial, U64]
  | succ n ih =>
    rw [factorial]
    split
    · next h =>
      have : n = 0 := by omega
      subst this
      simp [U64]
    · rw [ih, Nat.factorial_succ, Nat.mul_mod_mod]

theorem factorial_exact (n : Nat) (h : n ≤ 20) : factorial n = n.factorial := by
  rw [factorial_eq_mod]
  apply Nat.mod_eq_of_lt
  calc n.factorial ≤ (20).factorial := Nat.factorial_le h
    _ < U64 := by decide

theorem factorial_eq_zero (n : Nat) (h : 66 ≤ n) : factorial n = 0 := by
  rw [factorial_eq_mod]
  apply Nat.mod_eq_zero_of_dvd
  have h1 : U64 ∣ (66).factorial := by
    apply Nat.dvd_of_mod_eq_zero
    decide
  exact h1.trans (Nat.factorial_dvd_factorial h)

theorem binomial_exact (a b : Nat) (hb : b ≤ a) (ha : a ≤ 20) :
    binomial a b = .ok (a.choose b) := by
  have h1 : (a + U64 - b) % U64 = a - b := by
    have : a + U64 - b = (a - b) + U64 := by omega
    rw [this, Nat.add_mod_right]
    apply Nat.mod_eq_of_lt
    have : (20 : Nat) < U64 := by decide
    omega
  have hden : b.factorial * (a - b).factorial ≤ a.factorial := by
    have := Nat.factorial_mul_factorial_dvd_factorial hb
    exact Nat.le_of_dvd (Nat.factorial_pos a) this
  have ha20 : a.factorial < U64 :=
    calc a.factorial ≤ (20).factorial := Nat.factorial_le ha
      _ < U64 := by decide
  have hpos : 0 < b.factorial * (a - b).factorial :=
    Nat.mul_pos (Nat.factorial_pos b) (Nat.factorial_pos _)
  unfold binomial
  simp only [h1]
  rw [factorial_exact b (by omega), factorial_exact (a - b) (by omega), factorial_exact a ha,
    Nat.mod_eq_of_lt (by omega)]
  rw [if_neg (by omega), Nat.choose_eq_factorial_div_factorial hb]

theorem binomial_fault_of_lt (a b : Nat) (hab : a < b) (hb : b + 66 ≤ U64) :
    binomial a b = .error .divByZero := by
  have h1 : 66 ≤ (a + U64 - b) % U64 := by
    rw [Nat.mod_eq_of_lt (by omega)]
    omega
  unfold binomial
  simp [factorial_eq_zero _ h1]

/-! ## The reference list `lexCombos` -/

theorem lexCombos_length (lo : Int) (w n : Nat) : (lexCombos lo w n).length = w.choose n := by
  induction w generalizing lo n with
  | zero => cases n <;> simp [lexCombos]
  | succ w ih =>
    cases n with
    | zero => simp [lexCombos]
    | succ n => simp [lexCombos, ih, Nat.choose_succ_succ]

theorem lexCombos_get_left (lo : Int) (w n idx : Nat) (h : idx < w.choose n) :
    (lexCombos lo (w + 1) (n + 1))[idx]? =
      ((lexCombos (lo + 1) w n)[idx]?).map (fun t => lo :: t) := by
  rw [lexCombos, List.getElem?_append_left (by simpa [lexCombos_length] using h),
    List.getElem?_map]

theorem lexCombos_get_right (lo : Int) (w n idx : Nat) (h : w.choose n ≤ idx) :
    (lexCombos lo (w + 1) (n + 1))[idx]? = (lexCombos (lo + 1) w (n + 1))[idx - w.choose n]? := by
  rw [lexCombos, List.getElem?_append_right (by simpa [lexCombos_length] using h)]
  simp [lexCombos_length]

theorem lexCombos_one_get (lo : Int) (w idx : Nat) (h : idx < w) :
    (lexCombos lo w 1)[idx]? = some [lo + idx] := by
  induction w generalizing lo idx with
  | zero => omega
  | succ w ih =>
    cases idx with
    | zero => simp [lexCombos]
    | succ j =>
      rw [lexCombos_get_right _ _ _ _ (by simp)]
      simp only [Nat.choose_zero_right, Nat.add_sub_cancel]
      rw [ih _ _ (by omega)]
      congr 2
      push_cast
      ring

/-! ## The working vector of `combination` -/

theorem vecGet_mid (front back : List Int) (x : Int) :
    vecGet (front ++ x :: back) (front.length : Int) = .ok x := by
  have h : (front ++ x :: back)[front.length]? = some x := by
    rw [List.getElem?_append_right (le_refl _)]
    simp
  simp [vecGet, List.get?_eq_getElem?, h]

theorem vecSet_mid (front back : List Int) (x y : Int) :
    vecSet (front ++ x :: back) (front.length : Int) y = .ok (front ++ y :: back) := by
  simp [vecSet]


theorem bind_ok {α β : Type} (a : α) (f : α → Except Fault β) :
    (Except.ok a >>= f) = f a := rfl

theorem bind_error {α β : Type} (e : Fault) (f : α → Except Fault β) :
    (Except.error e >>= f) = Except.error e := rfl

theorem choose_le_two_pow (w m : Nat) : w.choose m ≤ 2 ^ w := by
  induction w generalizing m with
  | zero => cases m <;> simp
  | succ w ih =>
    cases m with
    | zero => simpa using Nat.one_le_two_pow
    | succ m =>
      have h1 := ih m
      have h2 := ih (m + 1)
      have h3 : (w + 1).choose (m + 1) = w.choose m + w.choose (m + 1) := Nat.choose_succ_succ w m
      rw [h3, Nat.pow_succ]
      omega

theorem choose_lt_of_le (w m : Nat) (h : w ≤ 21) : w.choose m < 2 ^ 22 :=
  calc w.choose m ≤ 2 ^ w := choose_le_two_pow w m
    _ ≤ 2 ^ 21 := Nat.pow_le_pow_right (by decide) h
    _ < 2 ^ 22 := by decide

theorem searchLoop_spec (U m rank : Nat) (front back : List Int) (t : List Int)
    (hU : U ≤ 21) (hrank : rank < 2 ^ 30) (hlen : front.length < 2 ^ 30) (hm : m < 2 ^ 30) :
    ∀ (w cn kn fuel : Nat), cn + w = U → kn ≤ rank → w ≤ fuel →
      (lexCombos (cn : Int) w (m + 1))[rank - kn]? = some t →
      ∃ (cn2 kn2 : Nat) (t2 : List Int),
        searchLoop (U : Int) ((front.length + 1 + m : Nat) : Int) (rank : Int)
            (front.length : Int) fuel (front ++ (cn : Int) :: back) (kn : Int)
          = .ok (front ++ ((cn2 + 1 : Nat) : Int) :: back,
                 ((kn2 + (U - (cn2 + 1)).choose m : Nat) : Int),
                 (((U - (cn2 + 1)).choose m : Nat) : Int)) ∧
        t = (cn2 : Int) :: t2 ∧
        (lexCombos ((cn2 + 1 : Nat) : Int) (U - (cn2 + 1)) m)[rank - kn2]? = some t2 ∧
        kn2 ≤ rank ∧ cn2 + 1 ≤ U := by
  intro w
  induction w with
  | zero =>
    intro cn kn fuel _ _ _ ht
    simp [lexCombos] at ht
  | succ w ih =>
    intro cn kn fuel hcn hkn hfuel ht
    obtain ⟨f, rfl⟩ : ∃ f, fuel = f + 1 := ⟨fuel - 1, by omega⟩
    have hmw : m ≤ w := by
      by_contra hcon
      have hz : (w + 1).choose (m + 1) = 0 := Nat.choose_eq_zero_of_lt (by omega)
      have hl := lexCombos_length (cn : Int) (w + 1) (m + 1)
      rw [hz] at hl
      rw [List.length_eq_zero.mp hl] at ht
      simp at ht
    have hr := choose_lt_of_le w m (by omega)
    have e1 : wrapInt ((cn : Int) + 1) = ((cn + 1 : Nat) : Int) := by
      rw [wrapInt_eq _ (by omega) (by omega)]; push_cast; rfl
    have e2 : toU64 (wrapInt ((U : Int) - ((cn + 1 : Nat) : Int))) = w := by
      have : (U : Int) - ((cn + 1 : Nat) : Int) = (w : Int) := by omega
      rw [this, wrapInt_eq _ (by omega) (by omega), toU64_natCast _ (by omega)]
    have e3 : toU64 (wrapInt (((front.length + 1 + m : Nat) : Int)
        - wrapInt ((front.length : Int) + 1))) = m := by
      rw [wrapInt_eq ((front.length : Int) + 1) (by omega) (by omega)]
      have : ((front.length + 1 + m : Nat) : Int) - ((front.length : Int) + 1) = (m : Int) := by
        omega
      rw [this, wrapInt_eq _ (by omega) (by omega), toU64_natCast _ (by omega)]
    have e4 : wrapInt ((kn : Int) + u64ToInt (w.choose m)) = ((kn + w.choose m : Nat) : Int) := by
      rw [u64ToInt_eq _ (by omega), wrapInt_eq _ (by omega) (by omega)]; push_cast; rfl
    rw [searchLoop]
    rw [vecGet_mid]
    rw [bind_ok]
    rw [e1]
    rw [vecSet_mid]
    rw [bind_ok]
    rw [vecGet_mid, bind_ok, e2, e3]
    rw [binomial_exact w m hmw (by omega), bind_ok]
    dsimp only
    rw [e4, u64ToInt_eq _ (by omega)]
    clear e1 e2 e3 e4
    by_cases hk : kn + w.choose m ≤ rank
    · have hk2 : ((kn + w.choose m : Nat) : Int) ≤ (rank : Int) := by exact_mod_cast hk
      rw [if_pos hk2]
      have hge : w.choose m ≤ rank - kn := by omega
      have ht2 : (lexCombos ((cn + 1 : Nat) : Int) w (m + 1))[rank - (kn + w.choose m)]? = some t := by
        rw [lexCombos_get_right (cn : Int) w m (rank - kn) hge] at ht
        have e5 : ((cn + 1 : Nat) : Int) = (cn : Int) + 1 := by push_cast; rfl
        have e6 : rank - (kn + w.choose m) = rank - kn - w.choose m := by omega
        rw [e5, e6]
        exact ht
      exact ih (cn + 1) (kn + w.choose m) f (by omega) hk (by omega) ht2
    · have hk2 : ¬ ((kn + w.choose m : Nat) : Int) ≤ (rank : Int) := by
        intro h; exact hk (by exact_mod_cast h)
      rw [if_neg hk2]
      have hlt : rank - kn < w.choose m := by omega
      rw [lexCombos_get_left (cn : Int) w m (rank - kn) hlt] at ht
      obtain ⟨t2, ht2, rfl⟩ := Option.map_eq_some'.mp ht
      have hw : U - (cn + 1) = w := by omega
      have e5 : ((cn + 1 : Nat) : Int) = (cn : Int) + 1 := by push_cast; rfl
      refine ⟨cn, kn, t2, ?_, rfl, ?_, hkn, by omega⟩
      · rw [hw]
      · rw [hw, e5]
        exact ht2


theorem lexCombos_get_lt (lo : Int) (w n idx : Nat) (t : List Int)
    (h : (lexCombos lo w n)[idx]? = some t) : idx < w.choose n := by
  rw [← lexCombos_length lo w n]
  exact (List.getElem?_eq_some_iff.mp h).1

theorem forLoop_start (front back : List Int) (prev : Nat) (hlen : front.length < 2 ^ 30)
    (hprev : (front = [] ∧ prev = 0) ∨ ∃ f0, front = f0 ++ [(prev : Int)]) :
    (if (front.length : Int) ≠ 0 then
        vecGet (front ++ 0 :: back) (wrapInt ((front.length : Int) - 1))
      else Except.ok 0) = Except.ok (prev : Int) := by
  rcases hprev with ⟨rfl, rfl⟩ | ⟨f0, rfl⟩
  · simp
  · have h1 : ((f0 ++ [(prev : Int)]).length : Int) ≠ 0 := by simp; omega
    rw [if_pos h1]
    have h2 : wrapInt (((f0 ++ [(prev : Int)]).length : Int) - 1) = (f0.length : Int) := by
      have : ((f0 ++ [(prev : Int)]).length : Int) - 1 = (f0.length : Int) := by simp
      rw [this]
      simp only [List.length_append, List.length_singleton] at hlen
      exact wrapInt_eq _ (by omega) (by omega)
    rw [h2, List.append_assoc]
    exact vecGet_mid f0 _ _

theorem forLoop_spec (U rank : Nat) (hU : U ≤ 21) (hrank : rank < 2 ^ 30) :
    ∀ (todo : Nat) (front : List Int) (prev kn : Nat) (r : Int) (t : List Int),
      2 ≤ front.length + todo + 1 → front.length + todo + 1 < 2 ^ 30 →
      ((front = [] ∧ prev = 0) ∨ ∃ f0, front = f0 ++ [(prev : Int)]) →
      (∀ x ∈ front, 0 ≤ x ∧ x ≤ (U : Int)) →
      prev ≤ U → kn ≤ rank →
      (lexCombos (prev : Int) (U - prev) (todo + 1))[rank - kn]? = some t →
      ∃ (v1 : List Int) (k r1 : Int),
        forLoop (U : Int) ((front.length + todo + 1 : Nat) : Int) (rank : Int) todo
            (front.length : Int) (front ++ List.replicate (todo + 1) 0) (kn : Int) r
          = .ok (v1, k, r1) ∧
        lastStep ((front.length + todo + 1 : Nat) : Int) (rank : Int) v1 k
          = .ok (front.map (fun c => c - 1) ++ t) := by
  intro todo
  induction todo with
  | zero =>
    intro front prev kn r t h2 hN hprev hb hp hkn ht
    refine ⟨_, _, _, by rw [forLoop], ?_⟩
    have hidx := lexCombos_get_lt _ _ _ _ _ ht
    rw [Nat.choose_one_right] at hidx
    rw [lexCombos_one_get _ _ _ hidx] at ht
    obtain rfl : [(prev : Int) + ((rank - kn : Nat) : Int)] = t := Option.some.inj ht
    rcases hprev with ⟨rfl, rfl⟩ | ⟨f0, rfl⟩
    · simp at h2
    · simp only [List.length_append, List.length_singleton, Nat.add_zero] at hN ⊢
      obtain ⟨e1, e2, e3, e4⟩ :
          wrapInt (((f0.length + 1 + 1 : Nat) : Int) - 2) = (f0.length : Int) ∧
          wrapInt (((f0.length + 1 + 1 : Nat) : Int) - 1)
            = ((f0 ++ [(prev : Int)]).length : Int) ∧
          wrapInt (wrapInt (wrapInt ((prev : Int) + (rank : Int)) + 1) - (kn : Int))
            = (prev : Int) + ((rank - kn : Nat) : Int) + 1 ∧
          wrapInt ((prev : Int) + ((rank - kn : Nat) : Int) + 1 - 1)
            = (prev : Int) + ((rank - kn : Nat) : Int) := by
        refine ⟨?_, ?_, ?_, ?_⟩
        · rw [wrapInt_eq _ (by omega) (by omega)]; omega
        · rw [wrapInt_eq _ (by omega) (by omega)]; simp
        · rw [wrapInt_eq ((prev : Int) + (rank : Int)) (by omega) (by omega),
            wrapInt_eq ((prev : Int) + (rank : Int) + 1) (by omega) (by omega),
            wrapInt_eq _ (by omega) (by omega)]
          omega
        · rw [wrapInt_eq _ (by omega) (by omega)]; omega
      have e5 : List.map (fun c => wrapInt (c - 1)) (f0 ++ [(prev : Int)])
          = List.map (fun c => c - 1) (f0 ++ [(prev : Int)]) := by
        apply List.map_congr_left
        intro x hx
        have := hb x hx
        exact wrapInt_eq _ (by omega) (by omega)
      unfold lastStep
      rw [e1, e2]
      have e6 : f0 ++ [(prev : Int)] ++ List.replicate (0 + 1) 0 = f0 ++ (prev : Int) :: [0] := by
        simp
      rw [e6, vecGet_mid, bind_ok, e3]
      have e7 : f0 ++ (prev : Int) :: [0] = (f0 ++ [(prev : Int)]) ++ 0 :: [] := by simp
      rw [e7, vecSet_mid, bind_ok, List.map_append, e5]
      simp only [List.map_cons, List.map_nil, e4]
  | succ todo ih =>
    intro front prev kn r t h2 hN hprev hb hp hkn ht
    have hlen : front.length < 2 ^ 30 := by omega
    have hstart := forLoop_start front (List.replicate (todo + 1) 0) prev hlen hprev
    obtain ⟨cn2, kn2, t2, hs, rfl, ht2, hkn2, hcn2⟩ :=
      searchLoop_spec U (todo + 1) rank front (List.replicate (todo + 1) 0) t hU hrank hlen
        (by omega) (U - prev) prev kn (U + 1) (by omega) hkn (by omega) ht
    have hNa : front.length + 1 + (todo + 1) = front.length + (todo + 1) + 1 := by omega
    have hNb : (front ++ [((cn2 + 1 : Nat) : Int)]).length + todo + 1
        = front.length + (todo + 1) + 1 := by
      simp only [List.length_append, List.length_singleton]
      omega
    have hr := choose_lt_of_le (U - (cn2 + 1)) (todo + 1) (by omega)
    have hb2 : ∀ x ∈ front ++ [((cn2 + 1 : Nat) : Int)], 0 ≤ x ∧ x ≤ (U : Int) := by
      intro x hx
      rcases List.mem_append.mp hx with hx | hx
      · exact hb x hx
      · rw [List.mem_singleton] at hx
        subst hx
        omega
    obtain ⟨v1, k, r1, hf, hl⟩ := ih (front ++ [((cn2 + 1 : Nat) : Int)]) (cn2 + 1) kn2
      (((U - (cn2 + 1)).choose (todo + 1) : Nat) : Int) t2 (by rw [hNb]; omega)
      (by rw [hNb]; omega) (Or.inr ⟨front, rfl⟩) hb2 hcn2 hkn2 ht2
    obtain ⟨e1, e2⟩ :
        wrapInt ((front.length : Int) + 1)
          = ((front ++ [((cn2 + 1 : Nat) : Int)]).length : Int) ∧
        wrapInt (((kn2 + (U - (cn2 + 1)).choose (todo + 1) : Nat) : Int)
            - (((U - (cn2 + 1)).choose (todo + 1) : Nat) : Int)) = (kn2 : Int) := by
      refine ⟨?_, ?_⟩
      · rw [wrapInt_eq _ (by omega) (by omega)]; simp
      · rw [wrapInt_eq _ (by omega) (by omega)]; omega
    rw [hNb] at hf hl
    rw [hNa] at hs
    refine ⟨v1, k, r1, ?_, ?_⟩
    · rw [forLoop, List.replicate_succ, hstart, bind_ok, vecSet_mid, bind_ok]
      have hfuel : Int.toNat (U : Int) + 1 = U + 1 := by simp
      rw [hfuel, hs, bind_ok]
      dsimp only
      rw [e1, e2]
      rw [List.append_assoc, List.singleton_append] at hf
      exact hf
    · rw [hl, List.map_append]
      simp

/-- The core of the unranking: for `2 ≤ n` and `U ≤ 21`, `combination U n rank` returns the
entry of index `rank` of `lexCombos 0 U n`. -/
theorem combination_core (U n rank : Nat) (t : List Int) (hU : U ≤ 21) (hn : 2 ≤ n)
    (ht : (lexCombos 0 U n)[rank]? = some t) : combination U n rank = .ok t := by
  have hidx := lexCombos_get_lt _ _ _ _ _ ht
  have hnU : n ≤ U := by
    by_contra hcon
    rw [Nat.choose_eq_zero_of_lt (by omega)] at hidx
    omega
  have hrank : rank < 2 ^ 30 := by
    have := choose_lt_of_le U n hU
    omega
  obtain ⟨todo, rfl⟩ : ∃ todo, n = todo + 1 := ⟨n - 1, by omega⟩
  have ht0 : (lexCombos ((0 : Nat) : Int) (U - 0) (todo + 1))[rank - 0]? = some t := by
    simpa using ht
  obtain ⟨v1, k, r1, hf, hl⟩ := forLoop_spec U rank hU hrank todo [] 0 0 0 t
    (by simp; omega) (by simp; omega) (Or.inl ⟨rfl, rfl⟩) (by simp) (by omega) (by omega) ht0
  simp only [List.length_nil, Nat.zero_add, List.nil_append, Nat.cast_zero, List.map_nil] at hf hl
  have h1 : ¬ (((todo + 1 : Nat) : Int) = 0) := by omega
  have h2 : ¬ (((todo + 1 : Nat) : Int) < 0) := by omega
  have h3 : Int.toNat ((todo + 1 : Nat) : Int) = todo + 1 := by simp
  unfold combination
  rw [if_neg h1, if_neg h2]
  dsimp only
  rw [h3, Nat.add_sub_cancel, hf, bind_ok]
  exact hl

/-! ## `lexCombos` lists every strictly increasing sequence once, in lexicographic order -/

theorem mem_lexCombos (lo : Int) (w n : Nat) (t : List Int) :
    t ∈ lexCombos lo w n ↔
      t.length = n ∧ t.Sorted (· < ·) ∧ ∀ x ∈ t, lo ≤ x ∧ x < lo + (w : Int) := by
  induction w generalizing lo n t with
  | zero =>
    cases n with
    | zero =>
      simp only [lexCombos, List.mem_singleton]
      constructor
      · rintro rfl
        simp
      · rintro ⟨h, _⟩
        exact List.length_eq_zero.mp h
    | succ n =>
      simp only [lexCombos, List.not_mem_nil, false_iff]
      rintro ⟨hl, _, hb⟩
      cases t with
      | nil => simp at hl
      | cons x t =>
        have := hb x (List.mem_cons_self _ _)
        omega
  | succ w ih =>
    cases n with
    | zero =>
      simp only [lexCombos, List.mem_singleton]
      constructor
      · rintro rfl
        simp
      · rintro ⟨h, _⟩
        exact List.length_eq_zero.mp h
    | succ n =>
      simp only [lexCombos, List.mem_append, List.mem_map]
      constructor
      · rintro (⟨u, hu, rfl⟩ | ht)
        · obtain ⟨hl, hs, hb⟩ := (ih (lo + 1) n u).mp hu
          refine ⟨by simp [hl], ?_, ?_⟩
          · refine List.sorted_cons.mpr ⟨?_, hs⟩
            intro y hy
            have := hb y hy
            omega
          · intro x hx
            rcases List.mem_cons.mp hx with rfl | hx
            · omega
            · have := hb x hx
              push_cast
              omega
        · obtain ⟨hl, hs, hb⟩ := (ih (lo + 1) (n + 1) t).mp ht
          refine ⟨hl, hs, ?_⟩
          intro x hx
          have := hb x hx
          push_cast
          omega
      · rintro ⟨hl, hs, hb⟩
        cases t with
        | nil => simp at hl
        | cons x u =>
          have hx := hb x (List.mem_cons_self _ _)
          obtain ⟨hxu, hsu⟩ := List.sorted_cons.mp hs
          by_cases hxlo : x = lo
          · left
            refine ⟨u, (ih (lo + 1) n u).mpr ⟨by simpa using hl, hsu, ?_⟩, by rw [hxlo]⟩
            intro y hy
            have h1 := hxu y hy
            have h2 := hb y (List.mem_cons_of_mem _ hy)
            push_cast at h2
            omega
          · right
            refine (ih (lo + 1) (n + 1) (x :: u)).mpr ⟨hl, hs, ?_⟩
            intro y hy
            have h2 := hb y hy
            push_cast at h2
            rcases List.mem_cons.mp hy with rfl | hy
            · omega
            · have h1 := hxu y hy
              omega

theorem lexCombos_sorted (lo : Int) (w n : Nat) :
    (lexCombos lo w n).Sorted (List.Lex (· < ·)) := by
  induction w generalizing lo n with
  | zero => cases n <;> simp [lexCombos, List.Sorted]
  | succ w ih =>
    cases n with
    | zero => simp [lexCombos, List.Sorted]
    | succ n =>
      rw [lexCombos]
      refine List.pairwise_append.mpr ⟨?_, ih (lo + 1) (n + 1), ?_⟩
      · refine List.pairwise_map.mpr ?_
        exact List.Pairwise.imp (fun h => List.Lex.cons h) (ih (lo + 1) n)
      · intro a ha b hb
        obtain ⟨u, _, rfl⟩ := List.mem_map.mp ha
        obtain ⟨hl, _, hbd⟩ := (mem_lexCombos (lo + 1) w (n + 1) b).mp hb
        cases b with
        | nil => simp at hl
        | cons y v =>
          have := hbd y (List.mem_cons_self _ _)
          exact List.Lex.rel (by omega)

theorem isCombo_iff_mem (upper size : Nat) (t : List Int) :
    IsCombo upper size t ↔ t ∈ lexCombos 0 upper size := by
  rw [mem_lexCombos]
  simp [IsCombo]

/-- A list that is strictly sorted in lexicographic order and whose members are exactly the
strictly increasing sequences of `size` values of `0, ..., upper-1` is `lexCombos 0 upper size`. -/
theorem eq_lexCombos (upper size : Nat) (L : List (List Int))
    (hsorted : L.Sorted (List.Lex (· < ·))) (hmem : ∀ t, t ∈ L ↔ IsCombo upper size t) :
    L = lexCombos 0 upper size := by
  have hs2 := lexCombos_sorted 0 upper size
  refine List.eq_of_perm_of_sorted ?_ hsorted hs2
  refine (List.perm_ext_iff_of_nodup hsorted.nodup hs2.nodup).mpr ?_
  intro t
  rw [hmem, isCombo_iff_mem]


theorem vecGet_zero (x : Int) (back : List Int) : vecGet (x :: back) 0 = .ok x := rfl

theorem vecSet_zero (x y : Int) (back : List Int) : vecSet (x :: back) 0 y = .ok (y :: back) := by
  simp [vecSet]

theorem searchLoop_overflow_fault (back : List Int) :
    searchLoop 22 21 6 0 23 (0 :: back) 0 = .error .divByZero := by
  have b1 : binomial (toU64 (wrapInt (22 - wrapInt (0 + 1))))
      (toU64 (wrapInt (21 - wrapInt (0 + 1)))) = .ok 5 := rfl
  have b2 : binomial (toU64 (wrapInt (22 - wrapInt (wrapInt (0 + 1) + 1))))
      (toU64 (wrapInt (21 - wrapInt (0 + 1)))) = .ok 1 := rfl
  have e3 : toU64 (wrapInt (22 - wrapInt (wrapInt (wrapInt (0 + 1) + 1) + 1))) = 19 := rfl
  have e4 : toU64 (wrapInt (21 - wrapInt (0 + 1))) = 20 := rfl
  have b3 : binomial 19 20 = .error .divByZero :=
    binomial_fault_of_lt 19 20 (by omega) (by decide)
  have k1 : wrapInt (0 + u64ToInt 5) ≤ 6 := by decide
  have k2 : wrapInt (wrapInt (0 + u64ToInt 5) + u64ToInt 1) ≤ 6 := by decide
  rw [searchLoop]
  rw [vecGet_zero, bind_ok, vecSet_zero, bind_ok, vecGet_zero, bind_ok, b1, bind_ok]
  dsimp only
  rw [if_pos k1, searchLoop]
  rw [vecGet_zero, bind_ok, vecSet_zero, bind_ok, vecGet_zero, bind_ok, b2, bind_ok]
  dsimp only
  rw [if_pos k2, searchLoop]
  rw [vecGet_zero, bind_ok, vecSet_zero, bind_ok, vecGet_zero, bind_ok, e3, e4, b3, bind_error]

theorem combination_overflow_fault : combination 22 21 6 = .error .divByZero := by
  have h1 : ¬ ((21 : Int) = 0) := by decide
  have h2 : ¬ ((21 : Int) < 0) := by decide
  have h3 : ¬ ((0 : Int) ≠ 0) := by decide
  have h4 : List.replicate (Int.toNat 21) (0 : Int) = 0 :: List.replicate 20 0 := rfl
  have h5 : Int.toNat 22 + 1 = 23 := rfl
  have h6 : Int.toNat 21 - 1 = 19 + 1 := rfl
  unfold combination
  rw [if_neg h1, if_neg h2]
  dsimp only
  rw [h4, h6, forLoop, if_neg h3, bind_ok, vecSet_zero, bind_ok, h5, searchLoop_overflow_fault,
    bind_error, bind_error]

/-! ## First and last entry of `lexCombos` -/

theorem consecutive_eq_map (lo : Int) (n : Nat) :
    consecutive lo n = (List.range n).map (fun (j : Nat) => lo + (j : Int)) := by
  induction n generalizing lo with
  | zero => rfl
  | succ n ih =>
    rw [consecutive, ih, List.range_succ_eq_map, List.map_cons, List.map_map]
    simp only [Nat.cast_zero, add_zero, List.cons.injEq, true_and]
    apply List.map_congr_left
    intro j _
    simp only [Function.comp_apply, Nat.succ_eq_add_one, Nat.cast_add, Nat.cast_one]
    ring

theorem lexCombos_first (lo : Int) (w n : Nat) (h : n ≤ w) :
    (lexCombos lo w n)[0]? = some (consecutive lo n) := by
  induction w generalizing lo n with
  | zero =>
    obtain rfl : n = 0 := by omega
    rfl
  | succ w ih =>
    cases n with
    | zero => rfl
    | succ n =>
      rw [lexCombos_get_left lo w n 0 (Nat.choose_pos (by omega)), ih (lo + 1) n (by omega)]
      rfl

theorem lexCombos_last (lo : Int) (w n : Nat) (h : n ≤ w) :
    (lexCombos lo w n)[w.choose n - 1]? = some (consecutive (lo + (w : Int) - (n : Int)) n) := by
  induction w generalizing lo n with
  | zero =>
    obtain rfl : n = 0 := by omega
    rfl
  | succ w ih =>
    cases n with
    | zero => rfl
    | succ n =>
      by_cases hn : n + 1 ≤ w
      · have hpos : 0 < w.choose (n + 1) := Nat.choose_pos hn
        have hc : (w + 1).choose (n + 1) = w.choose n + w.choose (n + 1) :=
          Nat.choose_succ_succ w n
        have hidx : (w + 1).choose (n + 1) - 1 - w.choose n = w.choose (n + 1) - 1 := by
          omega
        rw [lexCombos_get_right lo w n _ (by omega), hidx,
          ih (lo + 1) (n + 1) hn]
        congr 2
        push_cast
        ring
      · obtain rfl : n = w := by omega
        have hidx : (n + 1).choose (n + 1) - 1 = n.choose n - 1 := by simp
        rw [lexCombos_get_left lo n n _ (by simp), hidx, ih (lo + 1) n (le_refl _)]
        simp only [Option.map_some', consecutive]
        congr 2
        · push_cast
          ring
        · congr 1
          push_cast
          ring

/-! ## `combination` against the reference list -/

theorem combination_lex (upper size rank : Nat) (t : List Int)
    (hsize : size = 0 ∨ (2 ≤ size ∧ upper ≤ 21))
    (ht : (lexCombos 0 upper size)[rank]? = some t) : combination upper size rank = .ok t := by
  rcases hsize with rfl | ⟨h2, hU⟩
  · have hidx := lexCombos_get_lt _ _ _ _ _ ht
    rw [Nat.choose_zero_right] at hidx
    obtain rfl : rank = 0 := by omega
    cases upper <;> simp [lexCombos] at ht <;> subst ht <;> simp [combination]
  · exact combination_core upper size rank t hU h2 ht

/-! ## Claims about `combination` -/

/-- C1, counterexample: at `upper = 22`, `size = 2`, `rank = 5` the sequence at position 5 of
the lexicographic list is `[0, 6]`, while `combination` returns `[1, 2]`, because
`factorial(21)` wraps in `binomial(21, 1)`; at `upper = 2`, `size = 1`, `rank = 0` the function
reads `combinations[-1]` and returns nothing. -/
theorem combination_unranks_counterexample :
    (5 < Nat.choose 22 2 ∧ (lexCombos 0 22 2)[5]? = some [0, 6] ∧
      combination 22 2 5 = .ok [1, 2] ∧ combination 22 2 5 ≠ .ok [0, 6]) ∧
    (0 < Nat.choose 2 1 ∧ combination 2 1 0 = .error .outOfBounds) := by
  have hlex : (lexCombos 0 22 2)[5]? = some [0, 6] := by
    rw [lexCombos_get_left 0 21 1 5 (by decide), lexCombos_one_get (0 + 1) 21 5 (by decide)]
    rfl
  have h : combination 22 2 5 = .ok [1, 2] := rfl
  refine ⟨⟨by decide, hlex, h, ?_⟩, by decide, rfl⟩
  rw [h]
  exact fun e => absurd (Except.ok.inj e) (by decide)

/-- C1, amended: for `size = 0`, or `2 ≤ size ≤ upper ≤ 21`, and every `rank < C(upper, size)`,
`combination upper size rank` returns the element at position `rank` of the list `L` of all
strictly increasing length-`size` sequences over `0, ..., upper-1` sorted in ascending
lexicographic order. -/
theorem combination_unranks (upper size rank : Nat) (L : List (List Int))
    (hsize : size = 0 ∨ (2 ≤ size ∧ upper ≤ 21)) (_hle : size ≤ upper)
    (hrank : rank < upper.choose size)
    (hsorted : L.Sorted (List.Lex (· < ·)))
    (hmem : ∀ t, t ∈ L ↔ IsCombo upper size t) :
    ∃ h : rank < L.length, combination upper size rank = .ok (L.get ⟨rank, h⟩) := by
  have hL := eq_lexCombos upper size L hsorted hmem
  have hlen : rank < L.length := by
    rw [hL, lexCombos_length]
    exact hrank
  refine ⟨hlen, combination_lex upper size rank _ hsize ?_⟩
  rw [← hL, List.getElem?_eq_getElem hlen]
  rfl

theorem combination_unranks_witness : combination 4 2 4 = .ok [1, 3] := by
  obtain ⟨_, e⟩ := combination_unranks 4 2 4 (lexCombos 0 4 2) (Or.inr ⟨by decide, by decide⟩)
    (by decide) (by decide) (lexCombos_sorted 0 4 2) (fun t => (isCombo_iff_mem 4 2 t).symm)
  exact e

/-- C2, counterexample: at `upper = 22`, `size = 21`, `rank = 6 < C(22, 21)` the search of
`combination` reaches `binomial(19, 20)`, whose divisor is zero: no sequence is returned; at
`upper = 1`, `size = 1`, `rank = 0` the function reads `combinations[-1]` and returns
nothing. -/
theorem combination_bijection_counterexample :
    (6 < Nat.choose 22 21 ∧ combination 22 21 6 = .error .divByZero) ∧
    (0 < Nat.choose 1 1 ∧ combination 1 1 0 = .error .outOfBounds) :=
  ⟨⟨by decide, combination_overflow_fault⟩, by decide, rfl⟩

/-- C2, amended: for `size = 0`, or `2 ≤ size ≤ upper ≤ 21`, the map
`rank ↦ combination upper size rank` is a bijection from `0, ..., C(upper,size)-1` onto the
strictly increasing sequences of exactly `size` values of `0, ..., upper-1`: every output is
such a sequence, distinct ranks give distinct outputs, and every such sequence is an output. -/
theorem combination_bijection (upper size : Nat)
    (hsize : size = 0 ∨ (2 ≤ size ∧ upper ≤ 21)) (_hle : size ≤ upper) :
    (∀ rank, rank < upper.choose size →
      ∃ t, combination upper size rank = .ok t ∧ IsCombo upper size t) ∧
    (∀ r1 r2, r1 < upper.choose size → r2 < upper.choose size →
      combination upper size r1 = combination upper size r2 → r1 = r2) ∧
    (∀ t, IsCombo upper size t →
      ∃ rank, rank < upper.choose size ∧ combination upper size rank = .ok t) := by
  have hlen := lexCombos_length 0 upper size
  have key : ∀ rank (h : rank < (lexCombos 0 upper size).length),
      combination upper size rank = .ok ((lexCombos 0 upper size)[rank]) := by
    intro rank h
    exact combination_lex upper size rank _ hsize (List.getElem?_eq_getElem h)
  refine ⟨?_, ?_, ?_⟩
  · intro rank hr
    rw [← hlen] at hr
    exact ⟨_, key rank hr, (isCombo_iff_mem upper size _).mpr (List.getElem_mem hr)⟩
  · intro r1 r2 h1 h2 he
    rw [← hlen] at h1 h2
    rw [key r1 h1, key r2 h2] at he
    exact ((lexCombos_sorted 0 upper size).nodup.getElem_inj_iff).mp (Except.ok.inj he)
  · intro t ht
    obtain ⟨rank, hr, e⟩ := List.getElem_of_mem ((isCombo_iff_mem upper size t).mp ht)
    refine ⟨rank, by rw [← hlen]; exact hr, ?_⟩
    rw [key rank hr, e]

theorem combination_bijection_witness :
    ∃ t, combination 5 3 7 = .ok t ∧ IsCombo 5 3 t :=
  (combination_bijection 5 3 (Or.inr ⟨by decide, by decide⟩) (by decide)).1 7 (by decide)

/-- C3, counterexample: at `upper = 24`, `size = 2` rank `0` gives `[1, 2]` and not `[0, 1]`,
because `binomial(23, 1)` evaluates to `0` when `factorial(23)` and `factorial(22)` wrap; at
`upper = 3`, `size = 1`, `rank = 0` the function reads `combinations[-1]` and returns nothing. -/
theorem combination_first_last_counterexample :
    (combination 24 2 0 = .ok [1, 2] ∧
      combination 24 2 0 ≠ .ok ((List.range 2).map (fun (j : Nat) => (j : Int)))) ∧
    combination 3 1 0 = .error .outOfBounds := by
  have h : combination 24 2 0 = .ok [1, 2] := rfl
  refine ⟨⟨h, ?_⟩, rfl⟩
  rw [h]
  exact fun e => absurd (Except.ok.inj e) (by decide)

/-- C3, amended: for `size = 0`, or `2 ≤ size ≤ upper ≤ 21`, `combination upper size 0` is
`[0, 1, ..., size-1]` and `combination upper size (C(upper,size)-1)` is
`[upper-size, ..., upper-1]`. -/
theorem combination_first_last (upper size : Nat)
    (hsize : size = 0 ∨ (2 ≤ size ∧ upper ≤ 21)) (hle : size ≤ upper) :
    combination upper size (0 : Nat) = .ok ((List.range size).map (fun (j : Nat) => (j : Int))) ∧
    combination upper size (upper.choose size - 1 : Nat)
      = .ok ((List.range size).map (fun (j : Nat) => (upper : Int) - (size : Int) + (j : Int))) := by
  constructor
  · have h := lexCombos_first 0 upper size hle
    rw [consecutive_eq_map] at h
    simp only [zero_add] at h
    exact combination_lex upper size 0 _ hsize h
  · have h := lexCombos_last 0 upper size hle
    rw [consecutive_eq_map] at h
    simp only [zero_add] at h
    exact combination_lex upper size _ _ hsize h

theorem combination_first_last_witness :
    combination 6 3 (0 : Nat) = .ok [0, 1, 2] ∧ combination 6 3 (19 : Nat) = .ok [3, 4, 5] :=
  combination_first_last 6 3 (Or.inr ⟨by decide, by decide⟩) (by decide)

/-! ## `antisymmetrise` -/

theorem ValidSeq.eraseIdx {d : Nat} {s : List Int} (h : ValidSeq d s) (i : Nat) :
    ValidSeq d (s.eraseIdx i) :=
  ⟨le_trans (List.length_eraseIdx_le s i) h.1,
    fun x hx => h.2 x ((List.eraseIdx_sublist s i).subset hx)⟩

theorem ValidSeq.of_perm {d : Nat} {s t : List Int} (h : ValidSeq d s) (p : t.Perm s) :
    ValidSeq d t :=
  ⟨by rw [p.length_eq]; exact h.1, fun x hx => h.2 x (p.subset hx)⟩

theorem gammaGet_valid {K : Type} [Field K] {dim : Nat} (gammas : List (GammaMatrix K dim))
    (x : Int) (h0 : 0 ≤ x) (h1 : x < (gammas.length : Int)) (h2 : x < 2 ^ 31) :
    gammaGet gammas x = .ok (gammaAt gammas x) := by
  have e : toU64 x = x.toNat := by
    unfold toU64
    rw [Int.emod_eq_of_lt h0 (by omega)]
  have hlt : x.toNat < gammas.length := by omega
  unfold gammaGet gammaAt
  rw [e, List.get?_eq_getElem?, List.getElem?_eq_getElem hlt, List.getD_eq_getElem _ _ hlt]

theorem seqGet_lt (s : List Int) (i : Nat) (h : i < s.length) :
    seqGet s i = .ok (s.getD i 0) := by
  unfold seqGet
  rw [List.get?_eq_getElem?, List.getElem?_eq_getElem h, List.getD_eq_getElem _ _ h]

theorem all_le_of_valid {d : Nat} {s : List Int} (h : ValidSeq d s) :
    s.all (fun x => decide (toU64 x ≤ d)) = true := by
  rw [List.all_eq_true]
  intro x hx
  obtain ⟨h0, h1, h2⟩ := h.2 x hx
  have e : toU64 x = x.toNat := by
    unfold toU64
    rw [Int.emod_eq_of_lt h0 (by omega)]
  rw [decide_eq_true_eq, e]
  omega

/-- The loop of `antisymmetrise` adds the signed products one after the other. -/
theorem antisymLoop_sum {K : Type} [Field K] {dim : Nat} (gammas : List (GammaMatrix K dim))
    (self : List Int → Except Fault (GammaMatrix K dim)) (s : List Int)
    (sub : Nat → GammaMatrix K dim) (hv : ValidSeq gammas.length s)
    (hself : ∀ i, i < s.length → self (s.eraseIdx i) = .ok (sub i)) :
    ∀ (todo i : Nat) (acc : GammaMatrix K dim), i + todo ≤ s.length →
      antisymLoop gammas self s todo i acc
        = .ok (acc + ∑ j in Finset.range todo,
            ((-1 : K) ^ (i + j)) • (gammaAt gammas (s.getD (i + j) 0) * sub (i + j))) := by
  intro todo
  induction todo with
  | zero =>
    intro i acc _
    simp [antisymLoop]
  | succ todo ih =>
    intro i acc hi
    have hlt : i < s.length := by omega
    obtain ⟨h0, h1, h2⟩ := hv.2 (s.getD i 0) (by
      rw [List.getD_eq_getElem _ _ hlt]
      exact List.getElem_mem hlt)
    rw [antisymLoop, hself i hlt, bind_ok, seqGet_lt s i hlt, bind_ok,
      gammaGet_valid gammas _ h0 h1 h2, bind_ok]
    dsimp only
    rw [ih (i + 1) _ (by omega), Finset.sum_range_succ']
    congr 1
    have hsum : ∑ j in Finset.range todo, ((-1 : K) ^ (i + 1 + j)) •
          (gammaAt gammas (s.getD (i + 1 + j) 0) * sub (i + 1 + j))
        = ∑ j in Finset.range todo, ((-1 : K) ^ (i + (j + 1))) •
          (gammaAt gammas (s.getD (i + (j + 1)) 0) * sub (i + (j + 1))) := by
      apply Finset.sum_congr rfl
      intro j _
      rw [show i + 1 + j = i + (j + 1) by omega]
    rw [hsum]
    simp only [Nat.add_zero]
    rcases Nat.even_or_odd i with he | ho
    · have hmod : i % 2 = 0 := Nat.even_iff.mp he
      rw [if_pos hmod, Even.neg_one_pow he]
      simp only [one_smul]
      abel
    · have hmod : ¬ i % 2 = 0 := by
        rw [Nat.odd_iff] at ho
        omega
      rw [if_neg hmod, Odd.neg_one_pow ho]
      simp only [neg_smul, one_smul]
      abel

theorem antisymmetrise_nil {K : Type} [Field K] {dim : Nat} (gammas : List (GammaMatrix K dim))
    (h : gammas ≠ []) : antisymmetrise gammas [] = .ok (Unity K dim) := by
  cases gammas with
  | nil => exact absurd rfl h
  | cons g gs => simp [antisymmetrise, antisymmetriseAux.eq_def]

theorem antisymmetrise_rec {K : Type} [Field K] {dim : Nat} (gammas : List (GammaMatrix K dim))
    (s : List Int) (sub : Nat → GammaMatrix K dim) (hv : ValidSeq gammas.length s)
    (hn : 2 < s.length)
    (hsub : ∀ i, i < s.length → antisymmetrise gammas (s.eraseIdx i) = .ok (sub i)) :
    antisymmetrise gammas s
      = .ok (scalarDiv (∑ i in Finset.range s.length,
          ((-1 : K) ^ i) • (gammaAt gammas (s.getD i 0) * sub i)) (2 * s.length)) := by
  obtain ⟨k, hk⟩ : ∃ k, s.length = k + 1 := ⟨s.length - 1, by omega⟩
  have hself : ∀ i, i < s.length → antisymmetriseAux gammas k (s.eraseIdx i) = .ok (sub i) := by
    intro i hi
    have hl : (s.eraseIdx i).length = k := by
      rw [List.length_eraseIdx_of_lt hi]
      omega
    rw [← hsub i hi, antisymmetrise, hl]
  have hloop := antisymLoop_sum gammas (antisymmetriseAux gammas k) s sub hv hself s.length 0
    (zeroMatrix K dim) (by omega)
  simp only [Nat.zero_add, zeroMatrix, zero_add] at hloop
  have hall := all_le_of_valid hv
  have hle := hv.1
  have key : ∀ depth, depth = k + 1 → antisymmetriseAux gammas depth s
      = .ok (scalarDiv (∑ i in Finset.range s.length,
          ((-1 : K) ^ i) • (gammaAt gammas (s.getD i 0) * sub i)) (2 * s.length)) := by
    intro depth hd
    subst hd
    rw [antisymmetriseAux.eq_def]
    cases gammas with
    | nil =>
      simp only [List.length_nil, Nat.le_zero] at hle
      omega
    | cons g gs =>
      dsimp only
      rw [if_neg (not_not.mpr hle), if_neg (not_not.mpr hall), if_neg (by omega),
        if_neg (by omega), if_neg (by omega)]
      simp only [zeroMatrix]
      rw [hloop, bind_ok]
  exact key s.length hk

theorem antisymmetrise_single {K : Type} [Field K] {dim : Nat}
    (gammas : List (GammaMatrix K dim)) (a : Int) (hv : ValidSeq gammas.length [a]) :
    antisymmetrise gammas [a] = .ok (gammaAt gammas a) := by
  have hall := all_le_of_valid hv
  have hle := hv.1
  obtain ⟨h0, h1, h2⟩ := hv.2 a (List.mem_singleton_self a)
  unfold antisymmetrise
  rw [antisymmetriseAux.eq_def]
  cases gammas with
  | nil => simp at hle
  | cons g gs =>
    dsimp only
    rw [if_neg (not_not.mpr hle), if_neg (not_not.mpr hall), if_neg (by simp), if_pos (by simp),
      seqGet_lt _ _ (by simp), bind_ok]
    exact gammaGet_valid _ _ h0 h1 h2

theorem antisymmetrise_pair {K : Type} [Field K] {dim : Nat}
    (gammas : List (GammaMatrix K dim)) (a b : Int) (hv : ValidSeq gammas.length [a, b]) :
    antisymmetrise gammas [a, b] = .ok (commutator (gammaAt gammas a) (gammaAt gammas b)) := by
  have hall := all_le_of_valid hv
  have hle := hv.1
  obtain ⟨h0, h1, h2⟩ := hv.2 a (by simp)
  obtain ⟨h3, h4, h5⟩ := hv.2 b (by simp)
  unfold antisymmetrise
  rw [antisymmetriseAux.eq_def]
  cases gammas with
  | nil => simp at hle
  | cons g gs =>
    dsimp only
    rw [if_neg (not_not.mpr hle), if_neg (not_not.mpr hall), if_neg (by simp), if_neg (by simp),
      if_pos (by simp), seqGet_lt _ _ (by simp), bind_ok, seqGet_lt _ _ (by simp), bind_ok]
    have e0 : [a, b].getD 0 0 = a := rfl
    have e1 : [a, b].getD 1 0 = b := rfl
    rw [e0, e1, gammaGet_valid _ _ h0 h1 h2, bind_ok, gammaGet_valid _ _ h3 h4 h5, bind_ok]

theorem asymValue_of_ok {K : Type} [Field K] {dim : Nat} (gammas : List (GammaMatrix K dim))
    (s : List Int) (m : GammaMatrix K dim) (h : antisymmetrise gammas s = .ok m) :
    asymValue gammas s = m := by
  unfold asymValue
  rw [h]

/-- On a non-empty sequence that meets the precondition, `antisymmetrise` returns a matrix. -/
theorem antisymmetrise_total {K : Type} [Field K] {dim : Nat}
    (gammas : List (GammaMatrix K dim)) :
    ∀ (n : Nat) (s : List Int), s.length = n → 1 ≤ n → ValidSeq gammas.length s →
      antisymmetrise gammas s = .ok (asymValue gammas s) := by
  intro n
  induction n with
  | zero => intro s _ h; omega
  | succ n ih =>
    intro s hs _ hv
    have hex : ∃ m, antisymmetrise gammas s = .ok m := by
      match s, hs, hv with
      | [a], _, hv => exact ⟨_, antisymmetrise_single gammas a hv⟩
      | [a, b], _, hv => exact ⟨_, antisymmetrise_pair gammas a b hv⟩
      | a :: b :: c :: t, hs, hv =>
        refine ⟨_, antisymmetrise_rec gammas (a :: b :: c :: t)
          (fun i => asymValue gammas ((a :: b :: c :: t).eraseIdx i)) hv (by simp) ?_⟩
        intro i hi
        refine ih _ ?_ ?_ (hv.eraseIdx i)
        · rw [List.length_eraseIdx_of_lt hi]
          omega
        · simp only [List.length_cons] at hs
          omega
    obtain ⟨m, hm⟩ := hex
    rw [hm, asymValue_of_ok gammas s m hm]

theorem asymValue_pair {K : Type} [Field K] {dim : Nat} (gammas : List (GammaMatrix K dim))
    (a b : Int) (hv : ValidSeq gammas.length [a, b]) :
    asymValue gammas [a, b]
      = gammaAt gammas a * gammaAt gammas b - gammaAt gammas b * gammaAt gammas a :=
  asymValue_of_ok gammas _ _ (antisymmetrise_pair gammas a b hv)

theorem asymValue_rec {K : Type} [Field K] {dim : Nat} (gammas : List (GammaMatrix K dim))
    (s : List Int) (hv : ValidSeq gammas.length s) (hn : 2 < s.length) :
    asymValue gammas s
      = ((((2 * s.length : Nat) : K))⁻¹) • ∑ i in Finset.range s.length,
          ((-1 : K) ^ i) • (gammaAt gammas (s.getD i 0) * asymValue gammas (s.eraseIdx i)) := by
  refine asymValue_of_ok gammas s _ ?_
  refine antisymmetrise_rec gammas s (fun i => asymValue gammas (s.eraseIdx i)) hv hn ?_
  intro i hi
  refine antisymmetrise_total gammas _ _ rfl ?_ (hv.eraseIdx i)
  rw [List.length_eraseIdx_of_lt hi]
  omega

/-- Exchanging two neighbouring entries of the sequence changes the sign of the result. -/
theorem asymValue_swap_adjacent {K : Type} [Field K] {dim : Nat}
    (gammas : List (GammaMatrix K dim)) :
    ∀ (n : Nat) (front back : List Int) (a b : Int),
      (front ++ a :: b :: back).length = n →
      ValidSeq gammas.length (front ++ a :: b :: back) →
      asymValue gammas (front ++ b :: a :: back)
        = - asymValue gammas (front ++ a :: b :: back) := by
  intro n
  induction n with
  | zero =>
    intro front back a b hlen _
    simp at hlen
  | succ n ih =>
    intro front back a b hlen hv
    have hv2 : ValidSeq gammas.length (front ++ b :: a :: back) :=
      hv.of_perm (List.Perm.append_left front (List.Perm.swap a b back))
    have hl2 : (front ++ b :: a :: back).length = (front ++ a :: b :: back).length := by simp
    by_cases hsmall : (front ++ a :: b :: back).length = 2
    · have hf : front = [] := by
        apply List.eq_nil_of_length_eq_zero
        simp only [List.length_append, List.length_cons] at hsmall
        omega
      have hb : back = [] := by
        apply List.eq_nil_of_length_eq_zero
        simp only [List.length_append, List.length_cons] at hsmall
        omega
      subst hf hb
      simp only [List.nil_append] at hv hv2 ⊢
      rw [asymValue_pair gammas b a hv2, asymValue_pair gammas a b hv, neg_sub]
    · have hn : 2 < (front ++ a :: b :: back).length := by
        simp only [List.length_append, List.length_cons] at hsmall ⊢
        omega
      rw [asymValue_rec gammas _ hv2 (by rw [hl2]; exact hn), asymValue_rec gammas _ hv hn, hl2,
        ← smul_neg, ← Finset.sum_neg_distrib]
      congr 1
      have hi : front.length + 1 < (front ++ a :: b :: back).length := by simp
      refine Finset.sum_equiv (Equiv.swap front.length (front.length + 1)) ?_ ?_
      · intro p
        simp only [Finset.mem_range]
        rw [Equiv.swap_apply_def]
        split_ifs <;> omega
      · intro p hp
        rw [Finset.mem_range] at hp
        dsimp only
        rcases Nat.lt_or_ge p front.length with hlt | hge
        · have hlen2 : (front.eraseIdx p ++ a :: b :: back).length = n := by
            simp only [List.length_append, List.length_cons,
              List.length_eraseIdx_of_lt hlt] at hlen ⊢
            omega
          have hv3 : ValidSeq gammas.length (front.eraseIdx p ++ a :: b :: back) := by
            rw [← List.eraseIdx_append_of_lt_length hlt]
            exact hv.eraseIdx p
          rw [Equiv.swap_apply_of_ne_of_ne (by omega) (by omega),
            List.getD_append _ _ _ _ hlt, List.getD_append _ _ _ _ hlt,
            List.eraseIdx_append_of_lt_length hlt, List.eraseIdx_append_of_lt_length hlt,
            ih _ _ _ _ hlen2 hv3, mul_neg, smul_neg]
        · rcases Nat.eq_or_lt_of_le hge with heq | hgt
          · subst heq
            rw [Equiv.swap_apply_left, List.getD_append_right _ _ _ _ (le_refl _),
              List.getD_append_right _ _ _ _ (by omega),
              List.eraseIdx_append_of_length_le (le_refl _),
              List.eraseIdx_append_of_length_le (by omega), Nat.sub_self, Nat.add_sub_cancel_left]
            simp only [List.getD_cons_zero, List.getD_cons_succ, List.eraseIdx_cons_zero,
              List.eraseIdx_cons_succ, pow_succ, mul_neg, mul_one, neg_smul, neg_neg]
          · rcases Nat.eq_or_lt_of_le hgt with heq | hgt2
            · subst heq
              rw [Equiv.swap_apply_right, List.getD_append_right _ _ _ _ (by omega),
                List.getD_append_right _ _ _ _ (le_refl _),
                List.eraseIdx_append_of_length_le (by omega),
                List.eraseIdx_append_of_length_le (le_refl _), Nat.sub_self]
              have e1 : front.length.succ - front.length = 1 := by omega
              rw [e1]
              simp only [List.getD_cons_zero, List.getD_cons_succ, List.eraseIdx_cons_zero,
                List.eraseIdx_cons_succ, Nat.succ_eq_add_one, pow_succ, mul_neg, mul_one, neg_smul]
            · obtain ⟨q, rfl⟩ : ∃ q, p = front.length + (q + 2) :=
                ⟨p - front.length - 2, by omega⟩
              have hq : q < back.length := by
                simp only [List.length_append, List.length_cons] at hp
                omega
              have hlen2 : (front ++ a :: b :: back.eraseIdx q).length = n := by
                simp only [List.length_append, List.length_cons,
                  List.length_eraseIdx_of_lt hq] at hlen ⊢
                omega
              have he : ∀ (x y : Int), (front ++ x :: y :: back).eraseIdx (front.length + (q + 2))
                  = front ++ x :: y :: back.eraseIdx q := by
                intro x y
                rw [List.eraseIdx_append_of_length_le (by omega), Nat.add_sub_cancel_left]
                rfl
              have hg : ∀ (x y : Int), (front ++ x :: y :: back).getD (front.length + (q + 2)) 0
                  = back.getD q 0 := by
                intro x y
                rw [List.getD_append_right _ _ _ _ (by omega), Nat.add_sub_cancel_left]
                rfl
              have hv3 : ValidSeq gammas.length (front ++ a :: b :: back.eraseIdx q) := by
                rw [← he a b]
                exact hv.eraseIdx _
              rw [Equiv.swap_apply_of_ne_of_ne (by omega) (by omega), he, he, hg, hg,
                ih _ _ _ _ hlen2 hv3, mul_neg, smul_neg]

theorem ValidSeq.of_mem {d : Nat} {s t : List Int} (h : ValidSeq d s)
    (hlen : t.length = s.length) (hmem : ∀ x, x ∈ t → x ∈ s) : ValidSeq d t :=
  ⟨by rw [hlen]; exact h.1, fun x hx => h.2 x (hmem x hx)⟩

/-- Exchanging any two entries of the sequence changes the sign of the result. -/
theorem asymValue_swap_general {K : Type} [Field K] {dim : Nat}
    (gammas : List (GammaMatrix K dim)) (a b : Int) (back : List Int) :
    ∀ (mid front : List Int),
      ValidSeq gammas.length (front ++ a :: (mid ++ b :: back)) →
      asymValue gammas (front ++ b :: (mid ++ a :: back))
        = - asymValue gammas (front ++ a :: (mid ++ b :: back)) := by
  intro mid
  induction mid with
  | nil =>
    intro front hv
    exact asymValue_swap_adjacent gammas _ front back a b rfl hv
  | cons c mid ih =>
    intro front hv
    have hv1 : ValidSeq gammas.length (front ++ c :: b :: (mid ++ a :: back)) := by
      refine hv.of_mem (by simp) ?_
      intro x
      simp only [List.mem_append, List.mem_cons]
      tauto
    have hv2 : ValidSeq gammas.length ((front ++ [c]) ++ a :: (mid ++ b :: back)) := by
      refine hv.of_mem (by simp) ?_
      intro x
      simp only [List.mem_append, List.mem_cons, List.mem_singleton]
      tauto
    have hv3 : ValidSeq gammas.length (front ++ a :: c :: (mid ++ b :: back)) := hv
    have s1 := asymValue_swap_adjacent gammas _ front (mid ++ a :: back) c b rfl hv1
    have s2 := ih (front ++ [c]) hv2
    have s3 := asymValue_swap_adjacent gammas _ front (mid ++ b :: back) a c rfl hv3
    simp only [List.append_assoc, List.singleton_append] at s2
    simp only [List.cons_append]
    rw [s1, s2, s3, neg_neg]

theorem swapAt_cons_succ (x : Int) (s : List Int) (i j : Nat) :
    swapAt (x :: s) (i + 1) (j + 1) = x :: swapAt s i j := by
  simp [swapAt]

theorem swapAt_comm (s : List Int) (i j : Nat) (h : i ≠ j) : swapAt s i j = swapAt s j i := by
  unfold swapAt
  exact List.set_comm _ _ s h

theorem swapAt_decomp (s : List Int) :
    ∀ (i j : Nat), i < j → j < s.length →
      ∃ (front mid back : List Int) (a b : Int),
        s = front ++ a :: (mid ++ b :: back) ∧
        swapAt s i j = front ++ b :: (mid ++ a :: back) := by
  induction s with
  | nil =>
    intro i j _ hj
    simp at hj
  | cons x rest ih =>
    intro i j hij hj
    obtain ⟨j, rfl⟩ : ∃ k, j = k + 1 := ⟨j - 1, by omega⟩
    have hj2 : j < rest.length := by simpa using hj
    cases i with
    | zero =>
      refine ⟨[], rest.take j, rest.drop (j + 1), x, rest.getD j 0, ?_, ?_⟩
      · rw [List.getD_eq_getElem _ _ hj2, ← List.drop_eq_getElem_cons hj2,
          List.take_append_drop]
        rfl
      · simp only [swapAt, List.getD_cons_succ, List.getD_cons_zero, List.set_cons_zero,
          List.set_cons_succ, List.nil_append]
        rw [List.set_eq_take_cons_drop _ hj2]
    | succ i =>
      obtain ⟨front, mid, back, a, b, h1, h2⟩ := ih i j (by omega) hj2
      refine ⟨x :: front, mid, back, a, b, ?_, ?_⟩
      · rw [h1]
        rfl
      · rw [swapAt_cons_succ, h2]
        rfl

theorem asymValue_swapAt {K : Type} [Field K] {dim : Nat}
    (gammas : List (GammaMatrix K dim)) (s : List Int) (i j : Nat)
    (hv : ValidSeq gammas.length s) (hi : i < s.length) (hj : j < s.length) (hij : i ≠ j) :
    ValidSeq gammas.length (swapAt s i j) ∧
      asymValue gammas (swapAt s i j) = - asymValue gammas s := by
  have key : ∀ (i j : Nat), i < j → j < s.length →
      ValidSeq gammas.length (swapAt s i j) ∧
        asymValue gammas (swapAt s i j) = - asymValue gammas s := by
    intro i j hlt hj
    obtain ⟨front, mid, back, a, b, h1, h2⟩ := swapAt_decomp s i j hlt hj
    rw [h2]
    subst h1
    refine ⟨?_, asymValue_swap_general gammas a b back mid front hv⟩
    refine hv.of_mem (by simp) ?_
    intro x
    simp only [List.mem_append, List.mem_cons]
    tauto
  rcases Nat.lt_or_gt_of_ne hij with h | h
  · exact key i j h hj
  · rw [swapAt_comm s i j hij]
    exact key j i h hi

/-! ## Claims about `antisymmetrise` and the build -/

/-- C6: for a sequence `s` of `n > 2` valid indices, `antisymmetrise gammas s` returns
`(1/(2n))` times the sum over the positions `i = 0..n-1` of
`(-1)^i * gammas[s[i]] * antisymmetrise gammas (s without position i)`, each of the inner calls
returning a matrix `sub i`. -/
theorem antisymmetrise_recursion {K : Type} [Field K] {dim : Nat}
    (gammas : List (GammaMatrix K dim)) (s : List Int) (hv : ValidSeq gammas.length s)
    (hn : 2 < s.length) :
    ∃ sub : Nat → GammaMatrix K dim,
      (∀ i, i < s.length → antisymmetrise gammas (s.eraseIdx i) = .ok (sub i)) ∧
      antisymmetrise gammas s
        = .ok ((((2 * s.length : Nat) : K))⁻¹ • ∑ i in Finset.range s.length,
            ((-1 : K) ^ i) • (gammaAt gammas (s.getD i 0) * sub i)) := by
  have hsub : ∀ i, i < s.length →
      antisymmetrise gammas (s.eraseIdx i) = .ok (asymValue gammas (s.eraseIdx i)) := by
    intro i hi
    refine antisymmetrise_total gammas _ _ rfl ?_ (hv.eraseIdx i)
    rw [List.length_eraseIdx_of_lt hi]
    omega
  exact ⟨fun i => asymValue gammas (s.eraseIdx i), hsub,
    antisymmetrise_rec gammas s _ hv hn hsub⟩

theorem antisymmetrise_recursion_witness :
    ∃ sub : Nat → GammaMatrix ℚ 1,
      (∀ i, i < 3 → antisymmetrise [1, 2, 3] (([0, 1, 2] : List Int).eraseIdx i) = .ok (sub i)) ∧
      antisymmetrise [1, 2, 3] [0, 1, 2]
        = .ok ((((2 * 3 : Nat) : ℚ))⁻¹ • ∑ i in Finset.range 3,
            ((-1 : ℚ) ^ i) • (gammaAt [1, 2, 3] (([0, 1, 2] : List Int).getD i 0) * sub i)) :=
  antisymmetrise_recursion [1, 2, 3] [0, 1, 2] ⟨by decide, by decide⟩ (by decide)

/-- C7: `antisymmetrise` is antisymmetric in its index sequence: for a sequence `s` of valid
indices and two distinct positions `i`, `j` of it (so `s` has at least two entries),
`antisymmetrise gammas s` returns a matrix `m` and `antisymmetrise` of `s` with the entries at
`i` and `j` exchanged returns `-m`. -/
theorem antisymmetrise_antisymmetric {K : Type} [Field K] {dim : Nat}
    (gammas : List (GammaMatrix K dim)) (s : List Int) (i j : Nat)
    (hv : ValidSeq gammas.length s) (hi : i < s.length) (hj : j < s.length) (hij : i ≠ j) :
    ∃ m, antisymmetrise gammas s = .ok m ∧ antisymmetrise gammas (swapAt s i j) = .ok (-m) := by
  obtain ⟨hv2, hneg⟩ := asymValue_swapAt gammas s i j hv hi hj hij
  have hlen : (swapAt s i j).length = s.length := by simp [swapAt]
  refine ⟨asymValue gammas s, antisymmetrise_total gammas _ s rfl (by omega) hv, ?_⟩
  rw [antisymmetrise_total gammas _ _ rfl (by omega) hv2, hneg]

theorem antisymmetrise_antisymmetric_witness :
    ∃ m : GammaMatrix ℚ 1, antisymmetrise [1, 2, 3] [0, 2, 1] = .ok m ∧
      antisymmetrise [1, 2, 3] (swapAt [0, 2, 1] 0 2) = .ok (-m) :=
  antisymmetrise_antisymmetric [1, 2, 3] [0, 2, 1] 0 2 ⟨by decide, by decide⟩ (by decide)
    (by decide) (by decide)

/-- C8, counterexample: for the empty list of base matrices `antisymmetrise` calls
`gammas.front()` on an empty vector before it looks at the sequence, and returns nothing. -/
theorem antisymmetrise_empty_counterexample :
    antisymmetrise ([] : List (GammaMatrix ℚ 2)) [] = .error .outOfBounds := rfl

/-- C8, amended: for any non-empty list of base matrices, `antisymmetrise gammas []` returns the
identity matrix `Unity(k)` of the common dimension `k`. -/
theorem antisymmetrise_empty_sequence {K : Type} [Field K] {dim : Nat}
    (gammas : List (GammaMatrix K dim)) (h : gammas ≠ []) :
    antisymmetrise gammas [] = .ok (Unity K dim) :=
  antisymmetrise_nil gammas h

theorem antisymmetrise_empty_sequence_witness :
    antisymmetrise ([5] : List (GammaMatrix ℚ 2)) [] = .ok (Unity ℚ 2) :=
  antisymmetrise_empty_sequence [5] (by simp)

/-- C9, the failing input: with one base matrix (`d = 1`) and the sequence `[1]`, whose index
equals `d`, both assertions `num_indices <= d` and `sequence[i] <= d` hold and `gammas[1]` is
read outside the list; an index above `d` and a sequence longer than `d` do fail an
assertion. -/
theorem antisymmetrise_index_equal_d {K : Type} [Field K] {dim : Nat} (A : GammaMatrix K dim) :
    antisymmetrise [A] [1] = .error .outOfBounds ∧
    antisymmetrise [A] [2] = .error .assertion ∧
    antisymmetrise [A] [0, 0] = .error .assertion :=
  ⟨rfl, rfl, rfl⟩

/-- The build with `d` generators reaches subset size 1 after the matrix of size 0 and stops in
`combination(d, 1, 0)`. -/
theorem sizeLoop_faults_at_size_one {K : Type} [Field K] {dim : Nat}
    (gammas : List (GammaMatrix K dim)) (d fuel : Nat)
    (hb0 : binomial d (toU64 0) = .ok 1) (hb1 : binomial d (toU64 (wrapInt (0 + 1))) = .ok d)
    (hd : 1 ≤ d) (hg : antisymmetric_product gammas [] = .ok (Unity K dim))
    (hc : combination (u64ToInt d) (wrapInt (0 + 1)) 0 = .error .outOfBounds) :
    sizeLoop gammas d (fuel + 2) 0 [] = .error .outOfBounds := by
  have h0 : toU64 0 ≤ d := Nat.zero_le d
  have h1 : toU64 (wrapInt (0 + 1)) ≤ d := hd
  have h2 : toU64 0 < 1 := Nat.zero_lt_one
  have h3 : ¬ toU64 (wrapInt (0 + 1)) < 1 := by decide
  have h4 : toU64 0 < d := hd
  have hc0 : combination (u64ToInt d) 0 0 = .ok [] := rfl
  rw [sizeLoop, if_pos h0, hb0, bind_ok]
  have e1 : (1 : Nat) + 1 = 0 + 1 + 1 := rfl
  rw [e1, rankLoop, if_pos h2, hc0, bind_ok, hg, bind_ok, rankLoop, if_neg h3, bind_ok, sizeLoop,
    if_pos h1, hb1, bind_ok, rankLoop, if_pos h4, hc, bind_error, bind_error]

/-- C4, the failing input: for one base generator (`d = 1`) the build appends the matrix of
size 0 and then calls `combination(1, 1, 0)`, which reads `combinations[-1]`: no collection is
returned. -/
theorem generate_one_generator {K : Type} [Field K] {dim : Nat} (A : GammaMatrix K dim) :
    generate_odd_clifford_group_ [A] = .error .outOfBounds :=
  sizeLoop_faults_at_size_one [A] 1 1 rfl rfl (le_refl 1) rfl rfl

/-- C5, the failing input: for two base generators (`d = 2`) the build appends the matrix of
size 0 and then calls `combination(2, 1, 0)`, which reads `combinations[-1]`, as does
`combination(2, 1, 1)`: neither `[0]` nor `[1]` nor the four-element list is returned. -/
theorem generate_two_generators {K : Type} [Field K] {dim : Nat} (A B : GammaMatrix K dim) :
    generate_odd_clifford_group_ [A, B] = .error .outOfBounds ∧
    combination 2 1 0 = .error .outOfBounds ∧
    combination 2 1 1 = .error .outOfBounds :=
  ⟨sizeLoop_faults_at_size_one [A, B] 2 2 rfl rfl (by decide) rfl rfl, rfl, rfl⟩

/-! ## Claims about `factorial` and `binomial` -/

/-- C10, counterexample: `factorial(21)` wraps modulo `2^64` and is not `21!`, and
`binomial(21, 1)` is `5`, not `21`. -/
theorem factorial_exact_counterexample :
    factorial 21 = 14197454024290336768 ∧ Nat.factorial 21 = 51090942171709440000 ∧
    binomial 21 1 = .ok 5 ∧ Nat.choose 21 1 = 21 :=
  ⟨rfl, rfl, rfl, rfl⟩

/-- C10, amended: with 64-bit unsigned arithmetic wrapping modulo `2^64`, `factorial n` is `n!`
for every `n ≤ 20` and `binomial a b` is `C(a, b)` for every `b ≤ a ≤ 20`; for every `n ≥ 21`
the value `factorial n` is not `n!`. -/
theorem factorial_binomial_exact :
    (∀ n, n ≤ 20 → factorial n = n.factorial) ∧
    (∀ a b, b ≤ a → a ≤ 20 → binomial a b = .ok (a.choose b)) ∧
    (∀ n, 21 ≤ n → factorial n ≠ n.factorial) := by
  refine ⟨factorial_exact, binomial_exact, ?_⟩
  intro n hn h
  have h1 : factorial n < U64 := by
    rw [factorial_eq_mod]
    exact Nat.mod_lt _ (by decide)
  have h2 : U64 ≤ (21).factorial := by decide
  have h3 : (21).factorial ≤ n.factorial := Nat.factorial_le hn
  omega

theorem factorial_binomial_exact_witness :
    factorial 20 = 2432902008176640000 ∧ binomial 20 10 = .ok 184756 ∧
      factorial 21 ≠ (21).factorial :=
  ⟨factorial_binomial_exact.1 20 (by decide),
    factorial_binomial_exact.2.1 20 10 (by decide) (by decide),
    factorial_binomial_exact.2.2 21 (by decide)⟩

/-! ## The iteration budgets of the model are never used up -/

theorem gammaGet_ne_outOfFuel {K : Type} {dim : Nat} (gammas : List (GammaMatrix K dim))
    (x : Int) : gammaGet gammas x ≠ .error .outOfFuel := by
  unfold gammaGet
  split <;> simp

theorem seqGet_ne_outOfFuel (s : List Int) (i : Nat) : seqGet s i ≠ .error .outOfFuel := by
  unfold seqGet
  split <;> simp

theorem bind_ne_outOfFuel {α β : Type} (x : Except Fault α) (f : α → Except Fault β)
    (hx : x ≠ .error .outOfFuel) (hf : ∀ a, x = .ok a → f a ≠ .error .outOfFuel) :
    (x >>= f) ≠ .error .outOfFuel := by
  cases x with
  | error e =>
    rw [bind_error]
    intro h
    apply hx
    cases h
    rfl
  | ok a =>
    rw [bind_ok]
    exact hf a rfl

theorem antisymLoop_ne_outOfFuel {K : Type} [Field K] {dim : Nat}
    (gammas : List (GammaMatrix K dim)) (self : List Int → Except Fault (GammaMatrix K dim))
    (s : List Int) (hself : ∀ i, i < s.length → self (s.eraseIdx i) ≠ .error .outOfFuel) :
    ∀ (todo i : Nat) (acc : GammaMatrix K dim), i + todo ≤ s.length →
      antisymLoop gammas self s todo i acc ≠ .error .outOfFuel := by
  intro todo
  induction todo with
  | zero =>
    intro i acc _
    simp [antisymLoop]
  | succ todo ih =>
    intro i acc hi
    rw [antisymLoop]
    refine bind_ne_outOfFuel _ _ (hself i (by omega)) (fun _ _ => ?_)
    refine bind_ne_outOfFuel _ _ (seqGet_ne_outOfFuel s i) (fun _ _ => ?_)
    refine bind_ne_outOfFuel _ _ (gammaGet_ne_outOfFuel gammas _) (fun _ _ => ?_)
    exact ih (i + 1) _ (by omega)

/-- The recursion depth given to `antisymmetriseAux` by `antisymmetrise` always suffices. -/
theorem antisymmetrise_ne_outOfFuel {K : Type} [Field K] {dim : Nat}
    (gammas : List (GammaMatrix K dim)) :
    ∀ (n : Nat) (s : List Int), s.length = n → antisymmetrise gammas s ≠ .error .outOfFuel := by
  intro n
  induction n with
  | zero =>
    intro s hs
    rw [List.length_eq_zero.mp hs]
    unfold antisymmetrise
    rw [antisymmetriseAux.eq_def]
    cases gammas <;> simp
  | succ n ih =>
    intro s hs
    unfold antisymmetrise
    rw [hs, antisymmetriseAux.eq_def]
    cases gammas with
    | nil => simp
    | cons g gs =>
      dsimp only
      have hsingle : (seqGet s 0 >>= fun index => gammaGet (g :: gs) index)
          ≠ .error .outOfFuel :=
        bind_ne_outOfFuel _ _ (seqGet_ne_outOfFuel s 0) (fun _ _ => gammaGet_ne_outOfFuel _ _)
      have hpair : (seqGet s 0 >>= fun index1 => seqGet s 1 >>= fun index2 =>
          gammaGet (g :: gs) index1 >>= fun g1 => gammaGet (g :: gs) index2 >>= fun g2 =>
          (Except.ok (commutator g1 g2) : Except Fault (GammaMatrix K dim)))
          ≠ .error .outOfFuel := by
        refine bind_ne_outOfFuel _ _ (seqGet_ne_outOfFuel s 0) (fun _ _ => ?_)
        refine bind_ne_outOfFuel _ _ (seqGet_ne_outOfFuel s 1) (fun _ _ => ?_)
        refine bind_ne_outOfFuel _ _ (gammaGet_ne_outOfFuel _ _) (fun _ _ => ?_)
        refine bind_ne_outOfFuel _ _ (gammaGet_ne_outOfFuel _ _) (fun _ _ => ?_)
        simp
      have hloop : (antisymLoop (g :: gs) (antisymmetriseAux (g :: gs) n) s s.length 0
          (zeroMatrix K dim) >>= fun matrix =>
          (Except.ok (scalarDiv matrix (2 * s.length)) : Except Fault (GammaMatrix K dim)))
          ≠ .error .outOfFuel := by
        refine bind_ne_outOfFuel _ _ ?_ (fun _ _ => by simp)
        refine antisymLoop_ne_outOfFuel _ _ s ?_ _ _ _ (by omega)
        intro i hi
        have hl : (s.eraseIdx i).length = n := by
          rw [List.length_eraseIdx_of_lt hi]
          omega
        have := ih (s.eraseIdx i) hl
        rw [antisymmetrise, hl] at this
        exact this
      split_ifs
      all_goals first
        | exact hsingle
        | exact hpair
        | exact hloop
        | simp

theorem binomial_fault (a b : Nat) (h : 66 ≤ (a + U64 - b) % U64) :
    binomial a b = .error .divByZero := by
  unfold binomial
  simp [factorial_eq_zero _ h]

theorem binomial_error (a b : Nat) (e : Fault) (h : binomial a b = .error e) :
    e = .divByZero := by
  unfold binomial at h
  dsimp only at h
  split_ifs at h
  cases h
  rfl

theorem toU64_neg_one : toU64 (wrapInt (-1)) = U64 - 1 := by decide

/-- From a candidate `cn` with `0 ≤ cn ≤ U` the search at one position either stops in a
division by zero or returns with a candidate in the same range; it does not use up
`U - cn + 1` iterations. -/
theorem searchLoop_budget (U m : Nat) (nc : Int) (front back : List Int)
    (hU : U < 2 ^ 31 - 1) (hlen : front.length < 2 ^ 30) (hm1 : 1 ≤ m) (hm : m < 2 ^ 30) :
    ∀ (w cn fuel : Nat) (k : Int), cn + w = U → w < fuel →
      searchLoop (U : Int) ((front.length + 1 + m : Nat) : Int) nc (front.length : Int) fuel
          (front ++ (cn : Int) :: back) k = .error .divByZero ∨
      ∃ (cn2 : Nat) (k2 r2 : Int), cn2 ≤ U ∧
        searchLoop (U : Int) ((front.length + 1 + m : Nat) : Int) nc (front.length : Int) fuel
            (front ++ (cn : Int) :: back) k = .ok (front ++ (cn2 : Int) :: back, k2, r2) := by
  intro w
  induction w with
  | zero =>
    intro cn fuel k hcn hfuel
    obtain ⟨f, rfl⟩ : ∃ f, fuel = f + 1 := ⟨fuel - 1, by omega⟩
    have e1 : wrapInt ((cn : Int) + 1) = ((cn + 1 : Nat) : Int) := by
      rw [wrapInt_eq _ (by omega) (by omega)]; push_cast; rfl
    have e2 : (U : Int) - ((cn + 1 : Nat) : Int) = -1 := by omega
    have hbin : binomial (U64 - 1) (toU64 (wrapInt (((front.length + 1 + m : Nat) : Int)
        - wrapInt ((front.length : Int) + 1)))) = .error .divByZero := by
      have e3 : toU64 (wrapInt (((front.length + 1 + m : Nat) : Int)
          - wrapInt ((front.length : Int) + 1))) = m := by
        rw [wrapInt_eq ((front.length : Int) + 1) (by omega) (by omega)]
        have : ((front.length + 1 + m : Nat) : Int) - ((front.length : Int) + 1) = (m : Int) := by
          omega
        rw [this, wrapInt_eq _ (by omega) (by omega), toU64_natCast _ (by omega)]
      rw [e3]
      apply binomial_fault
      have hU64 : U64 = 2 ^ 64 := rfl
      have e4 : U64 - 1 + U64 - m = (U64 - 1 - m) + U64 := by omega
      rw [e4, Nat.add_mod_right, Nat.mod_eq_of_lt (by omega)]
      omega
    left
    rw [searchLoop, vecGet_mid, bind_ok, e1, vecSet_mid, bind_ok, vecGet_mid, bind_ok, e2,
      toU64_neg_one, hbin, bind_error]
  | succ w ih =>
    intro cn fuel k hcn hfuel
    obtain ⟨f, rfl⟩ : ∃ f, fuel = f + 1 := ⟨fuel - 1, by omega⟩
    have e1 : wrapInt ((cn : Int) + 1) = ((cn + 1 : Nat) : Int) := by
      rw [wrapInt_eq _ (by omega) (by omega)]; push_cast; rfl
    have e2 : toU64 (wrapInt ((U : Int) - ((cn + 1 : Nat) : Int))) = w := by
      have : (U : Int) - ((cn + 1 : Nat) : Int) = (w : Int) := by omega
      rw [this, wrapInt_eq _ (by omega) (by omega), toU64_natCast _ (by omega)]
    have e3 : toU64 (wrapInt (((front.length + 1 + m : Nat) : Int)
        - wrapInt ((front.length : Int) + 1))) = m := by
      rw [wrapInt_eq ((front.length : Int) + 1) (by omega) (by omega)]
      have : ((front.length + 1 + m : Nat) : Int) - ((front.length : Int) + 1) = (m : Int) := by
        omega
      rw [this, wrapInt_eq _ (by omega) (by omega), toU64_natCast _ (by omega)]
    rw [searchLoop, vecGet_mid, bind_ok, e1, vecSet_mid, bind_ok, vecGet_mid, bind_ok, e2, e3]
    clear e1 e2 e3
    cases hbin : binomial w m with
    | error e =>
      left
      rw [bind_error, binomial_error w m e hbin]
    | ok r =>
      rw [bind_ok]
      dsimp only
      split_ifs
      · exact ih (cn + 1) f _ (by omega) (by omega)
      · exact Or.inr ⟨cn + 1, _, _, by omega, rfl⟩

theorem vecGet_ne_outOfFuel (v : List Int) (i : Int) : vecGet v i ≠ .error .outOfFuel := by
  unfold vecGet
  split_ifs
  · split <;> simp
  · simp

theorem vecSet_ne_outOfFuel (v : List Int) (i x : Int) : vecSet v i x ≠ .error .outOfFuel := by
  unfold vecSet
  split_ifs <;> simp

theorem lastStep_ne_outOfFuel (num_elems num_comb : Int) (v : List Int) (k : Int) :
    lastStep num_elems num_comb v k ≠ .error .outOfFuel := by
  unfold lastStep
  refine bind_ne_outOfFuel _ _ (vecGet_ne_outOfFuel _ _) (fun _ _ => ?_)
  refine bind_ne_outOfFuel _ _ (vecSet_ne_outOfFuel _ _ _) (fun _ _ => ?_)
  simp

theorem forLoop_budget (U : Nat) (nc : Int) (hU : U < 2 ^ 31 - 1) :
    ∀ (todo : Nat) (front : List Int) (prev : Nat) (k r : Int),
      front.length + todo + 1 < 2 ^ 30 →
      ((front = [] ∧ prev = 0) ∨ ∃ f0, front = f0 ++ [(prev : Int)]) →
      prev ≤ U →
      ∃ res, res ≠ .error .outOfFuel ∧
        forLoop (U : Int) ((front.length + todo + 1 : Nat) : Int) nc todo (front.length : Int)
          (front ++ List.replicate (todo + 1) 0) k r = res := by
  intro todo
  induction todo with
  | zero =>
    intro front prev k r _ _ _
    refine ⟨.ok (front ++ List.replicate (0 + 1) 0, k, r), by simp, ?_⟩
    rw [forLoop]
  | succ todo ih =>
    intro front prev k r hN hprev hp
    have hlen : front.length < 2 ^ 30 := by omega
    have hstart := forLoop_start front (List.replicate (todo + 1) 0) prev hlen hprev
    have hNa : front.length + 1 + (todo + 1) = front.length + (todo + 1) + 1 := by omega
    have hfuel : Int.toNat (U : Int) + 1 = U + 1 := by simp
    rcases searchLoop_budget U (todo + 1) nc front (List.replicate (todo + 1) 0) hU hlen
        (by omega) (by omega) (U - prev) prev (U + 1) k (by omega) (by omega) with hs | hs
    · rw [hNa] at hs
      refine ⟨.error .divByZero, by simp, ?_⟩
      rw [forLoop, List.replicate_succ, hstart, bind_ok, vecSet_mid, bind_ok, hfuel, hs,
        bind_error]
    · obtain ⟨cn2, k2, r2, hcn2, hs⟩ := hs
      rw [hNa] at hs
      have hNb : (front ++ [(cn2 : Int)]).length + todo + 1 = front.length + (todo + 1) + 1 := by
        simp only [List.length_append, List.length_singleton]
        omega
      obtain ⟨res, hres, hf⟩ := ih (front ++ [(cn2 : Int)]) cn2 (wrapInt (k2 - r2)) r2
        (by rw [hNb]; omega) (Or.inr ⟨front, rfl⟩) hcn2
      rw [hNb, List.append_assoc, List.singleton_append] at hf
      have e1 : wrapInt ((front.length : Int) + 1) = ((front ++ [(cn2 : Int)]).length : Int) := by
        rw [wrapInt_eq _ (by omega) (by omega)]; simp
      refine ⟨res, hres, ?_⟩
      rw [forLoop, List.replicate_succ, hstart, bind_ok, vecSet_mid, bind_ok, hfuel, hs, bind_ok]
      dsimp only
      rw [e1]
      exact hf

/-- The budget `upper + 1` given to the search of `combination` always suffices: for a
universe size `0 ≤ upper < 2^31 - 1` and a number of elements below `2^30`, `combination` never
stops for lack of iterations. -/
theorem combination_ne_outOfFuel (U : Nat) (num_elems num_comb : Int) (hU : U < 2 ^ 31 - 1)
    (hn : num_elems < 2 ^ 30) : combination (U : Int) num_elems num_comb ≠ .error .outOfFuel := by
  unfold combination
  split_ifs with h0 h1
  · simp
  · simp
  · obtain ⟨n, rfl⟩ : ∃ n : Nat, num_elems = ((n + 1 : Nat) : Int) :=
      ⟨(num_elems - 1).toNat, by omega⟩
    have h3 : Int.toNat ((n + 1 : Nat) : Int) = n + 1 := by simp
    obtain ⟨res, hres, hf⟩ := forLoop_budget U num_comb hU n [] 0 0 0
      (by simp only [List.length_nil]; omega) (Or.inl ⟨rfl, rfl⟩) (Nat.zero_le U)
    simp only [List.length_nil, Nat.zero_add, List.nil_append, Nat.cast_zero] at hf
    dsimp only
    rw [h3, Nat.add_sub_cancel, hf]
    refine bind_ne_outOfFuel _ _ hres (fun _ _ => ?_)
    exact lastStep_ne_outOfFuel _ _ _ _

/-! ## Further claims about `factorial` and `binomial` -/

theorem wrapped_sub (a b : Nat) (hb : b ≤ a) (ha : a < U64) : (a + U64 - b) % U64 = a - b := by
  have : a + U64 - b = (a - b) + U64 := by omega
  rw [this, Nat.add_mod_right]
  exact Nat.mod_eq_of_lt (by omega)

/-- C11: for every `a` and `b` with `0 ≤ b ≤ a` (64-bit unsigned values), `binomial a b` and
`binomial a (a - b)` are the same, values and faults alike. -/
theorem binomial_symm (a b : Nat) (hb : b ≤ a) (ha : a < U64) :
    binomial a b = binomial a (a - b) := by
  unfold binomial
  rw [wrapped_sub a b hb ha, wrapped_sub a (a - b) (Nat.sub_le a b) ha, Nat.sub_sub_self hb,
    Nat.mul_comm (factorial b)]

theorem binomial_symm_witness : binomial 30 7 = binomial 30 (30 - 7) :=
  binomial_symm 30 7 (by decide) (by decide)

theorem factorial_ne_zero (a : Nat) (h : a ≤ 65) : factorial a ≠ 0 := by
  rw [factorial_eq_mod]
  intro h0
  have h1 : U64 ∣ a.factorial := Nat.dvd_of_mod_eq_zero h0
  have h2 : U64 ∣ (65).factorial := h1.trans (Nat.factorial_dvd_factorial h)
  have h3 : ¬ U64 ∣ (65).factorial := by decide
  exact h3 h2

theorem factorial_lt (a : Nat) : factorial a < U64 := by
  rw [factorial_eq_mod]
  exact Nat.mod_lt _ (by decide)

theorem binomial_zero_right (a : Nat) (ha : a < U64) :
    binomial a 0 = if factorial a = 0 then .error .divByZero else .ok 1 := by
  have h0 : factorial 0 = 1 := rfl
  have e : (a + U64 - 0) % U64 = a := wrapped_sub a 0 (Nat.zero_le a) ha
  unfold binomial
  rw [e, h0, Nat.one_mul, Nat.mod_eq_of_lt (factorial_lt a)]
  by_cases h : factorial a = 0
  · simp [h]
  · simp [h, Nat.div_self (Nat.pos_of_ne_zero h)]

theorem binomial_self (a : Nat) (ha : a < U64) :
    binomial a a = if factorial a = 0 then .error .divByZero else .ok 1 := by
  have h0 : factorial 0 = 1 := rfl
  have e : (a + U64 - a) % U64 = 0 := by
    rw [wrapped_sub a a (le_refl a) ha, Nat.sub_self]
  unfold binomial
  rw [e, h0, Nat.mul_one, Nat.mod_eq_of_lt (factorial_lt a)]
  by_cases h : factorial a = 0
  · simp [h]
  · simp [h, Nat.div_self (Nat.pos_of_ne_zero h)]

/-- C12, counterexample: `factorial(66)` is `0` modulo `2^64`, so the divisor of
`binomial(66, 0)` and of `binomial(66, 66)` is zero and neither returns `1`. -/
theorem binomial_edges_counterexample :
    factorial 66 = 0 ∧ binomial 66 0 = .error .divByZero ∧ binomial 66 66 = .error .divByZero := by
  have h : factorial 66 = 0 := factorial_eq_zero 66 (le_refl 66)
  refine ⟨h, ?_, ?_⟩
  · rw [binomial_zero_right 66 (by decide), if_pos h]
  · rw [binomial_self 66 (by decide), if_pos h]

/-- C12, amended: for every `a ≤ 65`, `binomial a 0 = 1` and `binomial a a = 1`, the divisor
being non-zero; for every 64-bit `a ≥ 66` the divisor is zero and neither call returns. -/
theorem binomial_edges :
    (∀ a, a ≤ 65 → binomial a 0 = .ok 1 ∧ binomial a a = .ok 1) ∧
    (∀ a, 66 ≤ a → a < U64 →
      binomial a 0 = .error .divByZero ∧ binomial a a = .error .divByZero) := by
  constructor
  · intro a ha
    have h64 : a < U64 := lt_of_le_of_lt ha (by decide)
    have hne := factorial_ne_zero a ha
    rw [binomial_zero_right a h64, binomial_self a h64, if_neg hne]
    exact ⟨rfl, rfl⟩
  · intro a ha h64
    have hz := factorial_eq_zero a ha
    rw [binomial_zero_right a h64, binomial_self a h64, if_pos hz]
    exact ⟨rfl, rfl⟩

theorem binomial_edges_witness :
    (binomial 65 0 = .ok 1 ∧ binomial 65 65 = .ok 1) ∧
    (binomial 100 0 = .error .divByZero ∧ binomial 100 100 = .error .divByZero) :=
  ⟨binomial_edges.1 65 (by decide), binomial_edges.2 100 (by decide) (by decide)⟩

/-- C13, counterexample: `binomial(0, 1)` has no check of `b > a`; the subtraction `a - b`
wraps to `2^64 - 1`, the divisor is `0` and the call ends in a division by zero, which is not
an assertion failure. -/
theorem binomial_domain_counterexample :
    binomial 0 1 = .error .divByZero ∧ binomial 0 1 ≠ .error .assertion := by
  have h : binomial 0 1 = .error .divByZero := binomial_fault_of_lt 0 1 (by decide) (by decide)
  refine ⟨h, ?_⟩
  rw [h]
  intro e
  cases e

/-- C13, amended: for every 64-bit `a` and `b` with `b > a`, `binomial a b` returns no number:
the divisor `factorial(b) * factorial(a - b)` is `0` modulo `2^64` and the division faults. -/
theorem binomial_domain (a b : Nat) (hab : a < b) (hb : b < U64) :
    binomial a b = .error .divByZero := by
  have hU : U64 = 2 ^ 64 := rfl
  by_cases h : 66 ≤ (a + U64 - b) % U64
  · exact binomial_fault a b h
  · have e : (a + U64 - b) % U64 = a + U64 - b := Nat.mod_eq_of_lt (by omega)
    have hb66 : 66 ≤ b := by omega
    unfold binomial
    simp [factorial_eq_zero b hb66]

theorem binomial_domain_witness : binomial 3 5 = .error .divByZero :=
  binomial_domain 3 5 (by decide) (by decide)

/-- C19: with 64-bit unsigned arithmetic wrapping modulo `2^64`, `factorial n` is `n!` for every
`n ≤ 20` (`factorial 0 = factorial 1 = 1` included) and `binomial a b` is `C(a, b)` for every
`b ≤ a ≤ 20`; no product formed on the way wraps: neither `n * factorial (n - 1)` in
`factorial` nor `factorial b * factorial (a - b)` in `binomial` reaches `2^64`. -/
theorem factorial_binomial_no_wrap :
    (factorial 0 = 1 ∧ factorial 1 = 1) ∧
    (∀ n, n ≤ 20 → factorial n = n.factorial) ∧
    (∀ n, 1 ≤ n → n ≤ 20 → n * factorial (n - 1) < U64) ∧
    (∀ a b, b ≤ a → a ≤ 20 → factorial b * factorial (a - b) < U64) ∧
    (∀ a b, b ≤ a → a ≤ 20 → binomial a b = .ok (a.choose b)) := by
  have h20 : (20).factorial < U64 := by decide
  refine ⟨⟨rfl, rfl⟩, factorial_exact, ?_, ?_, binomial_exact⟩
  · intro n h1 hn
    rw [factorial_exact (n - 1) (by omega)]
    have e : n * (n - 1).factorial = n.factorial := Nat.mul_factorial_pred h1
    rw [e]
    exact lt_of_le_of_lt (Nat.factorial_le hn) h20
  · intro a b hb ha
    rw [factorial_exact b (by omega), factorial_exact (a - b) (by omega)]
    have hd := Nat.le_of_dvd (Nat.factorial_pos a) (Nat.factorial_mul_factorial_dvd_factorial hb)
    exact lt_of_le_of_lt (hd.trans (Nat.factorial_le ha)) h20

theorem factorial_binomial_no_wrap_witness :
    factorial 20 = (20).factorial ∧ 20 * factorial (20 - 1) < U64 ∧
      factorial 10 * factorial (20 - 10) < U64 ∧ binomial 20 10 = .ok (Nat.choose 20 10) :=
  ⟨factorial_binomial_no_wrap.2.1 20 (by decide),
    factorial_binomial_no_wrap.2.2.1 20 (by decide) (by decide),
    factorial_binomial_no_wrap.2.2.2.1 20 10 (by decide) (by decide),
    factorial_binomial_no_wrap.2.2.2.2 20 10 (by decide) (by decide)⟩

/-! ## Further claims about `combination` -/

/-- C17, the failing input: with `size = 1` (for every `upper` and `rank`) the for loop of
`combination` runs no iteration and the final position is computed from
`combinations[num_elems-2] = combinations[-1]`, a read outside the one-element working
vector. -/
theorem combination_size_one_out_of_bounds (upper rank : Int) :
    combination upper 1 rank = .error .outOfBounds := rfl

/-- C20: for `upper ≤ 20`, `2 ≤ size ≤ upper` and ranks `r1 < r2 < C(upper, size)`,
`combination upper size r1` and `combination upper size r2` return sequences `t1` and `t2`
with `t1` strictly smaller than `t2` in lexicographic order. -/
theorem combination_strict_mono (upper size r1 r2 : Nat) (hU : upper ≤ 20) (h2 : 2 ≤ size)
    (_hle : size ≤ upper) (h12 : r1 < r2) (hr2 : r2 < upper.choose size) :
    ∃ t1 t2, combination upper size r1 = .ok t1 ∧ combination upper size r2 = .ok t2 ∧
      List.Lex (· < ·) t1 t2 := by
  have hlen := lexCombos_length 0 upper size
  have hb2 : r2 < (lexCombos 0 upper size).length := by rw [hlen]; exact hr2
  have hb1 : r1 < (lexCombos 0 upper size).length := lt_trans h12 hb2
  have hsize : size = 0 ∨ (2 ≤ size ∧ upper ≤ 21) := Or.inr ⟨h2, by omega⟩
  refine ⟨(lexCombos 0 upper size)[r1], (lexCombos 0 upper size)[r2],
    combination_lex upper size r1 _ hsize (List.getElem?_eq_getElem hb1),
    combination_lex upper size r2 _ hsize (List.getElem?_eq_getElem hb2), ?_⟩
  exact (List.pairwise_iff_getElem.mp (lexCombos_sorted 0 upper size)) r1 r2 hb1 hb2 h12

theorem combination_strict_mono_witness :
    ∃ t1 t2, combination 5 3 2 = .ok t1 ∧ combination 5 3 7 = .ok t2 ∧
      List.Lex (· < ·) t1 t2 :=
  combination_strict_mono 5 3 2 7 (by decide) (by decide) (by decide) (by decide) (by decide)

/-! ## `count_Hs_and_Ls` -/

/-- The counting loop, started at position `front.length` with `back` still to read, adds to
`exp` the number of entries of `back` that are `≥ p`. -/
theorem countLoop_spec (p : Int) :
    ∀ (back front : List Int) (exp fuel : Nat),
      (front ++ back).length < 2 ^ 31 → exp + back.length < U64 → back.length < fuel →
      countLoop (front ++ back) p (front ++ back).length fuel (front.length : Int) exp
        = .ok (exp + back.countP (fun x => decide (x ≥ p))) := by
  intro back
  induction back with
  | nil =>
    intro front exp fuel _ _ hfuel
    obtain ⟨f, rfl⟩ : ∃ f, fuel = f + 1 := ⟨fuel - 1, by simp at hfuel; omega⟩
    have hc : ¬ toU64 (front.length : Int) < (front ++ []).length := by
      rw [toU64_natCast _ (by simp at *; omega)]
      simp
    rw [countLoop, if_neg hc]
    simp
  | cons x back ih =>
    intro front exp fuel hlen hexp hfuel
    obtain ⟨f, rfl⟩ : ∃ f, fuel = f + 1 := ⟨fuel - 1, by omega⟩
    simp only [List.length_append, List.length_cons] at hlen hexp hfuel
    have hU : U64 = 2 ^ 64 := rfl
    have hc : toU64 (front.length : Int) < (front ++ x :: back).length := by
      rw [toU64_natCast _ (by omega)]
      simp
    have e1 : wrapInt ((front.length : Int) + 1) = ((front ++ [x]).length : Int) := by
      rw [wrapInt_eq _ (by omega) (by omega)]
      simp
    have e2 : (exp + 1) % U64 = exp + 1 := Nat.mod_eq_of_lt (by omega)
    have hih := ih (front ++ [x]) (if x ≥ p then exp + 1 else exp) f
      (by simp only [List.length_append, List.length_cons, List.length_nil]; omega)
      (by split_ifs <;> omega) (by omega)
    rw [List.append_assoc, List.singleton_append] at hih
    rw [countLoop, if_pos hc, vecGet_mid, bind_ok]
    dsimp only
    rw [e1, e2, hih, List.countP_cons]
    clear e1 hih ih
    by_cases hx : x ≥ p
    · have hd : decide (x ≥ p) = true := decide_eq_true hx
      rw [if_pos hx, hd, if_pos rfl, Nat.add_right_comm, Nat.add_assoc]
    · have hd : decide (x ≥ p) = false := decide_eq_false hx
      rw [if_neg hx, hd, if_neg (by simp), Nat.add_zero]

/-- On a sequence of length `n ≠ 1` below `2^31` the exponent of `count_Hs_and_Ls` is
`(n-1)*n/2` plus the number of entries that are `≥ p`. -/
theorem count_Hs_and_Ls_eq (s : List Int) (p q num_H num_L : Int) (h1 : 1 < s.length)
    (hn : s.length < 2 ^ 31) :
    count_Hs_and_Ls s p q num_H num_L
      = .ok (if (s.length * (s.length - 1) / 2 + s.countP (fun x => decide (x ≥ p))) % 2 = 0
          then (wrapInt (num_H + 1), num_L) else (num_H, wrapInt (num_L + 1))) := by
  have hU : U64 = 2 ^ 64 := rfl
  have hne : ¬ s.length = 1 := by omega
  have e1 : (s.length + U64 - 1) % U64 = s.length - 1 := by
    have : s.length + U64 - 1 = (s.length - 1) + U64 := by omega
    rw [this, Nat.add_mod_right]
    exact Nat.mod_eq_of_lt (by omega)
  have hprod : (s.length - 1) * s.length ≤ 2 ^ 62 := by
    calc (s.length - 1) * s.length ≤ 2 ^ 31 * 2 ^ 31 :=
          Nat.mul_le_mul (by omega) (by omega)
      _ = 2 ^ 62 := by norm_num
  have e2 : (s.length - 1) * s.length % U64 = (s.length - 1) * s.length :=
    Nat.mod_eq_of_lt (by omega)
  have hloop := countLoop_spec p s [] ((s.length - 1) * s.length / 2) (s.length + 1)
    (by simpa using hn) (by omega) (by omega)
  simp only [List.nil_append, List.length_nil, Nat.cast_zero] at hloop
  unfold count_Hs_and_Ls
  dsimp only
  rw [if_neg hne, e1, e2, hloop, bind_ok, Nat.mul_comm (s.length - 1) s.length]
  split_ifs <;> rfl

/-- On a one-element sequence `count_Hs_and_Ls` compares the entry with `p`. -/
theorem count_single_eq (i p q num_H num_L : Int) :
    count_Hs_and_Ls [i] p q num_H num_L
      = .ok (if i < p then (wrapInt (num_H + 1), num_L) else (num_H, wrapInt (num_L + 1))) := by
  unfold count_Hs_and_Ls
  dsimp only
  rw [if_pos (by simp), vecGet_zero, bind_ok]
  split_ifs <;> rfl

/-- The two outcomes of `count_Hs_and_Ls` are told apart by the first counter. -/
theorem count_outcome_iff (c : Prop) [Decidable c] (num_H num_L : Int)
    (hH1 : -2 ^ 31 ≤ num_H) (hH2 : num_H < 2 ^ 31 - 1)
    (hL1 : -2 ^ 31 ≤ num_L) (hL2 : num_L < 2 ^ 31 - 1) :
    (((.ok (if c then (wrapInt (num_H + 1), num_L) else (num_H, wrapInt (num_L + 1))) :
        Except Fault (Int × Int)) = .ok (num_H + 1, num_L)) ↔ c) ∧
    (((.ok (if c then (wrapInt (num_H + 1), num_L) else (num_H, wrapInt (num_L + 1))) :
        Except Fault (Int × Int)) = .ok (num_H, num_L + 1)) ↔ ¬ c) := by
  have eH : wrapInt (num_H + 1) = num_H + 1 := wrapInt_eq _ (by omega) (by omega)
  have eL : wrapInt (num_L + 1) = num_L + 1 := wrapInt_eq _ (by omega) (by omega)
  rw [eH, eL]
  by_cases hc : c
  · rw [if_pos hc]
    refine ⟨⟨fun _ => hc, fun _ => rfl⟩, ⟨fun e => ?_, fun h => absurd hc h⟩⟩
    have := congrArg Prod.fst (Except.ok.inj e)
    simp at this
  · rw [if_neg hc]
    refine ⟨⟨fun e => ?_, fun h => absurd h hc⟩, ⟨fun _ => hc, fun _ => rfl⟩⟩
    have := congrArg Prod.fst (Except.ok.inj e)
    simp at this

/-- C14: on the one-element sequence `[i]`, with counters whose increment stays inside `int`,
`count_Hs_and_Ls` classifies the sequence as H iff `i < p`: it returns `num_H + 1` and the
unchanged `num_L` exactly when `i < p`, and the unchanged `num_H` and `num_L + 1` exactly when
`i < p` fails; `q` plays no part. -/
theorem count_Hs_and_Ls_single (i p q num_H num_L : Int)
    (hH1 : -2 ^ 31 ≤ num_H) (hH2 : num_H < 2 ^ 31 - 1)
    (hL1 : -2 ^ 31 ≤ num_L) (hL2 : num_L < 2 ^ 31 - 1) :
    (count_Hs_and_Ls [i] p q num_H num_L = .ok (num_H + 1, num_L) ↔ i < p) ∧
    (count_Hs_and_Ls [i] p q num_H num_L = .ok (num_H, num_L + 1) ↔ ¬ i < p) := by
  rw [count_single_eq]
  exact count_outcome_iff (i < p) num_H num_L hH1 hH2 hL1 hL2

theorem count_Hs_and_Ls_single_witness :
    (count_Hs_and_Ls [2] 3 4 10 20 = .ok (10 + 1, 20) ↔ (2 : Int) < 3) ∧
      (count_Hs_and_Ls [2] 3 4 10 20 = .ok (10, 20 + 1) ↔ ¬ (2 : Int) < 3) :=
  count_Hs_and_Ls_single 2 3 4 10 20 (by decide) (by decide) (by decide) (by decide)

/-- C15: on a sequence of length `n > 1` (below `2^31`, the range of the `int` loop counter),
with counters whose increment stays inside `int`, `count_Hs_and_Ls` classifies the sequence as
H (`num_H + 1`, `num_L` unchanged) iff `n(n-1)/2 + #{positions whose index is ≥ p}` is even,
and as L (`num_L + 1`, `num_H` unchanged) iff it is odd. -/
theorem count_Hs_and_Ls_parity (s : List Int) (p q num_H num_L : Int) (h1 : 1 < s.length)
    (hn : s.length < 2 ^ 31)
    (hH1 : -2 ^ 31 ≤ num_H) (hH2 : num_H < 2 ^ 31 - 1)
    (hL1 : -2 ^ 31 ≤ num_L) (hL2 : num_L < 2 ^ 31 - 1) :
    (count_Hs_and_Ls s p q num_H num_L = .ok (num_H + 1, num_L) ↔
      (s.length * (s.length - 1) / 2 + s.countP (fun x => decide (x ≥ p))) % 2 = 0) ∧
    (count_Hs_and_Ls s p q num_H num_L = .ok (num_H, num_L + 1) ↔
      (s.length * (s.length - 1) / 2 + s.countP (fun x => decide (x ≥ p))) % 2 = 1) := by
  rw [count_Hs_and_Ls_eq s p q num_H num_L h1 hn]
  have h := count_outcome_iff
    ((s.length * (s.length - 1) / 2 + s.countP (fun x => decide (x ≥ p))) % 2 = 0)
    num_H num_L hH1 hH2 hL1 hL2
  refine ⟨h.1, h.2.trans ?_⟩
  omega

theorem count_Hs_and_Ls_parity_witness :
    (count_Hs_and_Ls [0, 1, 2] 2 1 10 20 = .ok (10 + 1, 20) ↔
      ([0, 1, 2].length * ([0, 1, 2].length - 1) / 2
        + [0, 1, 2].countP (fun x => decide (x ≥ (2 : Int)))) % 2 = 0) ∧
    (count_Hs_and_Ls [0, 1, 2] 2 1 10 20 = .ok (10, 20 + 1) ↔
      ([0, 1, 2].length * ([0, 1, 2].length - 1) / 2
        + [0, 1, 2].countP (fun x => decide (x ≥ (2 : Int)))) % 2 = 1) :=
  count_Hs_and_Ls_parity [0, 1, 2] 2 1 10 20 (by decide) (by decide) (by decide) (by decide)
    (by decide) (by decide)

/-! ## The calls of `binomial` made by `combination` -/

theorem map_ok {α β : Type} (f : α → β) (a : α) :
    Except.map f (Except.ok a : Except Fault α) = .ok (f a) := rfl

theorem map_error {α β : Type} (f : α → β) (e : Fault) :
    Except.map f (Except.error e : Except Fault α) = .error e := rfl

/-- Dropping the log of `searchLoopLog` gives `searchLoop`. -/
theorem searchLoopLog_fst (upper num_elems num_comb i : Int) :
    ∀ (fuel : Nat) (v : List Int) (k : Int) (tr : List BinomialCall),
      Except.map Prod.fst (searchLoopLog upper num_elems num_comb i fuel v k tr)
        = searchLoop upper num_elems num_comb i fuel v k := by
  intro fuel
  induction fuel with
  | zero => intro v k tr; rfl
  | succ f ih =>
    intro v k tr
    rw [searchLoopLog, searchLoop]
    cases h1 : vecGet v i with
    | error e => rfl
    | ok c =>
      rw [bind_ok, bind_ok]
      cases h2 : vecSet v i (wrapInt (c + 1)) with
      | error e => rfl
      | ok v1 =>
        rw [bind_ok, bind_ok]
        cases h3 : vecGet v1 i with
        | error e => rfl
        | ok c1 =>
          rw [bind_ok, bind_ok]
          cases h4 : binomial (toU64 (wrapInt (upper - c1)))
              (toU64 (wrapInt (num_elems - wrapInt (i + 1)))) with
          | error e => rfl
          | ok r =>
            rw [bind_ok, bind_ok]
            dsimp only
            split_ifs
            · exact ih _ _ _
            · rfl

/-- Dropping the log of `forLoopLog` gives `forLoop`. -/
theorem forLoopLog_fst (upper num_elems num_comb : Int) :
    ∀ (todo : Nat) (i : Int) (v : List Int) (k r : Int) (tr : List BinomialCall),
      Except.map Prod.fst (forLoopLog upper num_elems num_comb todo i v k r tr)
        = forLoop upper num_elems num_comb todo i v k r := by
  intro todo
  induction todo with
  | zero => intro i v k r tr; rfl
  | succ todo ih =>
    intro i v k r tr
    rw [forLoopLog, forLoop]
    cases h1 : (if i ≠ 0 then vecGet v (wrapInt (i - 1)) else Except.ok 0) with
    | error e => rfl
    | ok start =>
      rw [bind_ok, bind_ok]
      cases h2 : vecSet v i start with
      | error e => rfl
      | ok v0 =>
        rw [bind_ok, bind_ok]
        have hs := searchLoopLog_fst upper num_elems num_comb i (upper.toNat + 1) v0 k tr
        cases h3 : searchLoopLog upper num_elems num_comb i (upper.toNat + 1) v0 k tr with
        | error e =>
          rw [h3, map_error] at hs
          rw [← hs]
          rfl
        | ok res =>
          obtain ⟨⟨v1, k1, r1⟩, tr1⟩ := res
          rw [h3, map_ok] at hs
          rw [← hs, bind_ok, bind_ok]
          exact ih _ _ _ _ _

/-- Dropping the log of `combinationLog` gives `combination`. -/
theorem combinationLog_fst (upper num_elems num_comb : Int) :
    Except.map Prod.fst (combinationLog upper num_elems num_comb)
      = combination upper num_elems num_comb := by
  unfold combinationLog combination
  by_cases h0 : num_elems = 0
  · rw [if_pos h0, if_pos h0]; rfl
  · rw [if_neg h0, if_neg h0]
    by_cases h1 : num_elems < 0
    · rw [if_pos h1, if_pos h1]; rfl
    · rw [if_neg h1, if_neg h1]
      dsimp only
      have hs := forLoopLog_fst upper num_elems num_comb (num_elems.toNat - 1) 0
        (List.replicate num_elems.toNat 0) 0 0 []
      cases h3 : forLoopLog upper num_elems num_comb (num_elems.toNat - 1) 0
          (List.replicate num_elems.toNat 0) 0 0 [] with
      | error e =>
        rw [h3, map_error] at hs
        rw [← hs]
        rfl
      | ok res =>
        obtain ⟨⟨v1, k1, r1⟩, tr1⟩ := res
        rw [h3, map_ok] at hs
        rw [← hs, bind_ok, bind_ok]
        dsimp only
        cases h4 : lastStep num_elems num_comb v1 k1 with
        | error e => rfl
        | ok l => rfl

/-- The search at position `front.length`, with `m` positions after it, started at the
candidate `cn`: it ends within `w` iterations, and every call of `binomial` it logs is made
with a candidate value `≤ U - m` and with arguments `a = U - cand` and `b = m ≤ a`. -/
theorem searchLoopLog_spec (U m rank : Nat) (front back : List Int) (t : List Int)
    (hU : U ≤ 21) (hrank : rank < 2 ^ 30) (hlen : front.length < 2 ^ 30) (hm : m < 2 ^ 30) :
    ∀ (w cn kn fuel : Nat) (tr : List BinomialCall), cn + w = U → kn ≤ rank → w ≤ fuel →
      (lexCombos (cn : Int) w (m + 1))[rank - kn]? = some t →
      ∃ (cn2 kn2 : Nat) (t2 : List Int) (tr2 : List BinomialCall),
        searchLoopLog (U : Int) ((front.length + 1 + m : Nat) : Int) (rank : Int)
            (front.length : Int) fuel (front ++ (cn : Int) :: back) (kn : Int) tr
          = .ok ((front ++ ((cn2 + 1 : Nat) : Int) :: back,
                 ((kn2 + (U - (cn2 + 1)).choose m : Nat) : Int),
                 (((U - (cn2 + 1)).choose m : Nat) : Int)), tr ++ tr2) ∧
        t = (cn2 : Int) :: t2 ∧
        (lexCombos ((cn2 + 1 : Nat) : Int) (U - (cn2 + 1)) m)[rank - kn2]? = some t2 ∧
        kn2 ≤ rank ∧ cn2 + 1 ≤ U ∧
        ∀ c ∈ tr2, c.pos = (front.length : Int) ∧ c.cand + (m : Int) ≤ (U : Int) ∧
          (c.a : Int) = (U : Int) - c.cand ∧ c.b = m ∧ c.b ≤ c.a := by
  intro w
  induction w with
  | zero =>
    intro cn kn fuel tr _ _ _ ht
    simp [lexCombos] at ht
  | succ w ih =>
    intro cn kn fuel tr hcn hkn hfuel ht
    obtain ⟨f, rfl⟩ : ∃ f, fuel = f + 1 := ⟨fuel - 1, by omega⟩
    have hmw : m ≤ w := by
      by_contra hcon
      have hz : (w + 1).choose (m + 1) = 0 := Nat.choose_eq_zero_of_lt (by omega)
      have hl := lexCombos_length (cn : Int) (w + 1) (m + 1)
      rw [hz] at hl
      rw [List.length_eq_zero.mp hl] at ht
      simp at ht
    have hr := choose_lt_of_le w m (by omega)
    have e1 : wrapInt ((cn : Int) + 1) = ((cn + 1 : Nat) : Int) := by
      rw [wrapInt_eq _ (by omega) (by omega)]; push_cast; rfl
    have e2 : toU64 (wrapInt ((U : Int) - ((cn + 1 : Nat) : Int))) = w := by
      have : (U : Int) - ((cn + 1 : Nat) : Int) = (w : Int) := by omega
      rw [this, wrapInt_eq _ (by omega) (by omega), toU64_natCast _ (by omega)]
    have e3 : toU64 (wrapInt (((front.length + 1 + m : Nat) : Int)
        - wrapInt ((front.length : Int) + 1))) = m := by
      rw [wrapInt_eq ((front.length : Int) + 1) (by omega) (by omega)]
      have : ((front.length + 1 + m : Nat) : Int) - ((front.length : Int) + 1) = (m : Int) := by
        omega
      rw [this, wrapInt_eq _ (by omega) (by omega), toU64_natCast _ (by omega)]
    have e4 : wrapInt ((kn : Int) + u64ToInt (w.choose m)) = ((kn + w.choose m : Nat) : Int) := by
      rw [u64ToInt_eq _ (by omega), wrapInt_eq _ (by omega) (by omega)]; push_cast; rfl
    have hcall : ∀ c ∈ [BinomialCall.mk (front.length : Int) ((cn + 1 : Nat) : Int) w m],
        c.pos = (front.length : Int) ∧ c.cand + (m : Int) ≤ (U : Int) ∧
          (c.a : Int) = (U : Int) - c.cand ∧ c.b = m ∧ c.b ≤ c.a := by
      intro c hc
      rw [List.mem_singleton] at hc
      subst hc
      refine ⟨rfl, ?_, ?_, rfl, hmw⟩
      · show ((cn + 1 : Nat) : Int) + (m : Int) ≤ (U : Int)
        omega
      · show (w : Int) = (U : Int) - ((cn + 1 : Nat) : Int)
        omega
    rw [searchLoopLog]
    rw [vecGet_mid]
    rw [bind_ok]
    rw [e1]
    rw [vecSet_mid]
    rw [bind_ok]
    rw [vecGet_mid, bind_ok, e2, e3]
    rw [binomial_exact w m hmw (by omega), bind_ok]
    dsimp only
    rw [e4, u64ToInt_eq _ (by omega)]
    clear e1 e2 e3 e4
    by_cases hk : kn + w.choose m ≤ rank
    · have hk2 : ((kn + w.choose m : Nat) : Int) ≤ (rank : Int) := by exact_mod_cast hk
      rw [if_pos hk2]
      have hge : w.choose m ≤ rank - kn := by omega
      have ht2 : (lexCombos ((cn + 1 : Nat) : Int) w (m + 1))[rank - (kn + w.choose m)]? = some t := by
        rw [lexCombos_get_right (cn : Int) w m (rank - kn) hge] at ht
        have e5 : ((cn + 1 : Nat) : Int) = (cn : Int) + 1 := by push_cast; rfl
        have e6 : rank - (kn + w.choose m) = rank - kn - w.choose m := by omega
        rw [e5, e6]
        exact ht
      obtain ⟨cn2, kn2, t2, tr2, hs, h1, h2, h3, h4, h5⟩ :=
        ih (cn + 1) (kn + w.choose m) f
          (tr ++ [BinomialCall.mk (front.length : Int) ((cn + 1 : Nat) : Int) w m])
          (by omega) hk (by omega) ht2
      refine ⟨cn2, kn2, t2,
        BinomialCall.mk (front.length : Int) ((cn + 1 : Nat) : Int) w m :: tr2, ?_, h1, h2, h3, h4,
        ?_⟩
      · rw [hs, List.append_assoc, List.singleton_append]
      · intro c hc
        rcases List.mem_cons.mp hc with hc | hc
        · exact hcall c (by rw [hc]; exact List.mem_singleton_self _)
        · exact h5 c hc
    · have hk2 : ¬ ((kn + w.choose m : Nat) : Int) ≤ (rank : Int) := by
        intro h; exact hk (by exact_mod_cast h)
      rw [if_neg hk2]
      have hlt : rank - kn < w.choose m := by omega
      rw [lexCombos_get_left (cn : Int) w m (rank - kn) hlt] at ht
      obtain ⟨t2, ht2, rfl⟩ := Option.map_eq_some'.mp ht
      have hw : U - (cn + 1) = w := by omega
      have e5 : ((cn + 1 : Nat) : Int) = (cn : Int) + 1 := by push_cast; rfl
      refine ⟨cn, kn, t2, [BinomialCall.mk (front.length : Int) ((cn + 1 : Nat) : Int) w m],
        ?_, rfl, ?_, hkn, by omega, hcall⟩
      · rw [hw]
      · rw [hw, e5]
        exact ht2

/-- The `for` loop from position `front.length` on: it returns, and every call of `binomial`
it logs, at a position `i` of the loop, has a candidate value `≤ U - (size - i - 1)` and
arguments `a = U - cand`, `b = size - i - 1 ≤ a`. -/
theorem forLoopLog_spec (U rank : Nat) (hU : U ≤ 21) (hrank : rank < 2 ^ 30) :
    ∀ (todo : Nat) (front : List Int) (prev kn : Nat) (r : Int) (t : List Int)
      (tr : List BinomialCall),
      front.length + todo + 1 < 2 ^ 30 →
      ((front = [] ∧ prev = 0) ∨ ∃ f0, front = f0 ++ [(prev : Int)]) →
      prev ≤ U → kn ≤ rank →
      (lexCombos (prev : Int) (U - prev) (todo + 1))[rank - kn]? = some t →
      ∃ (v1 : List Int) (k r1 : Int) (tr2 : List BinomialCall),
        forLoopLog (U : Int) ((front.length + todo + 1 : Nat) : Int) (rank : Int) todo
            (front.length : Int) (front ++ List.replicate (todo + 1) 0) (kn : Int) r tr
          = .ok ((v1, k, r1), tr ++ tr2) ∧
        ∀ c ∈ tr2, (front.length : Int) ≤ c.pos ∧ c.pos < ((front.length + todo : Nat) : Int) ∧
          c.cand + (((front.length + todo + 1 : Nat) : Int) - c.pos - 1) ≤ (U : Int) ∧
          (c.a : Int) = (U : Int) - c.cand ∧
          (c.b : Int) = ((front.length + todo + 1 : Nat) : Int) - c.pos - 1 ∧ c.b ≤ c.a := by
  intro todo
  induction todo with
  | zero =>
    intro front prev kn r t tr hN hprev hp hkn ht
    refine ⟨_, _, _, [], by rw [forLoopLog, List.append_nil], ?_⟩
    intro c hc
    simp at hc
  | succ todo ih =>
    intro front prev kn r t tr hN hprev hp hkn ht
    have hlen : front.length < 2 ^ 30 := by omega
    have hstart := forLoop_start front (List.replicate (todo + 1) 0) prev hlen hprev
    obtain ⟨cn2, kn2, t2, trA, hs, rfl, ht2, hkn2, hcn2, hA⟩ :=
      searchLoopLog_spec U (todo + 1) rank front (List.replicate (todo + 1) 0) t hU hrank hlen
        (by omega) (U - prev) prev kn (U + 1) tr (by omega) hkn (by omega) ht
    have hNa : front.length + 1 + (todo + 1) = front.length + (todo + 1) + 1 := by omega
    have hNb : (front ++ [((cn2 + 1 : Nat) : Int)]).length + todo + 1
        = front.length + (todo + 1) + 1 := by
      simp only [List.length_append, List.length_singleton]
      omega
    have hNc : (front ++ [((cn2 + 1 : Nat) : Int)]).length = front.length + 1 := by
      simp only [List.length_append, List.length_singleton]
    have hr := choose_lt_of_le (U - (cn2 + 1)) (todo + 1) (by omega)
    obtain ⟨v1, k, r1, trB, hf, hB⟩ := ih (front ++ [((cn2 + 1 : Nat) : Int)]) (cn2 + 1) kn2
      (((U - (cn2 + 1)).choose (todo + 1) : Nat) : Int) t2 (tr ++ trA)
      (by rw [hNb]; omega) (Or.inr ⟨front, rfl⟩) hcn2 hkn2 ht2
    obtain ⟨e1, e2⟩ :
        wrapInt ((front.length : Int) + 1)
          = ((front ++ [((cn2 + 1 : Nat) : Int)]).length : Int) ∧
        wrapInt (((kn2 + (U - (cn2 + 1)).choose (todo + 1) : Nat) : Int)
            - (((U - (cn2 + 1)).choose (todo + 1) : Nat) : Int)) = (kn2 : Int) := by
      refine ⟨?_, ?_⟩
      · rw [wrapInt_eq _ (by omega) (by omega)]; simp
      · rw [wrapInt_eq _ (by omega) (by omega)]; omega
    rw [hNb] at hf hB
    rw [hNa] at hs
    refine ⟨v1, k, r1, trA ++ trB, ?_, ?_⟩
    · rw [forLoopLog, List.replicate_succ, hstart, bind_ok, vecSet_mid, bind_ok]
      have hfuel : Int.toNat (U : Int) + 1 = U + 1 := by simp
      rw [hfuel, hs, bind_ok]
      dsimp only
      rw [e1, e2]
      rw [List.append_assoc, List.singleton_append, List.append_assoc] at hf
      exact hf
    · clear e1 e2 hf hs hstart
      intro c hc
      rcases List.mem_append.mp hc with hc | hc
      · obtain ⟨h1, h2, h3, h4, h5⟩ := hA c hc
        refine ⟨by omega, by omega, by omega, h3, by omega, h5⟩
      · obtain ⟨h1, h2, h3, h4, h5, h6⟩ := hB c hc
        rw [hNc] at h1 h2
        refine ⟨by omega, by omega, h3, h4, h5, h6⟩

/-- C18: for `upper ≤ 20`, `2 ≤ size ≤ upper` and `rank < C(upper, size)`, the run of
`combination` with its log of `binomial` calls returns (every do-while search ends within its
budget of `upper + 1` iterations) with the result of `combination`, and every call
`binomial(a, b)` in the log, made at a position `i` with the 1-based candidate value `cand`,
has `0 ≤ i < size - 1`, `cand ≤ upper - (size - i - 1)`, `a = upper - cand`,
`b = size - i - 1` and `b ≤ a`. -/
theorem combination_binomial_calls (upper size rank : Nat) (hU : upper ≤ 20) (h2 : 2 ≤ size)
    (hs : size ≤ upper) (hr : rank < upper.choose size) :
    ∃ (res : List Int) (tr : List BinomialCall),
      combinationLog (upper : Int) (size : Int) (rank : Int) = .ok (res, tr) ∧
      combination (upper : Int) (size : Int) (rank : Int) = .ok res ∧
      ∀ c ∈ tr, 0 ≤ c.pos ∧ c.pos < (size : Int) - 1 ∧
        c.cand ≤ (upper : Int) - ((size : Int) - c.pos - 1) ∧
        (c.a : Int) = (upper : Int) - c.cand ∧ (c.b : Int) = (size : Int) - c.pos - 1 ∧
        c.b ≤ c.a := by
  have hlt : rank < (lexCombos 0 upper size).length := by
    rw [lexCombos_length]; exact hr
  have ht : (lexCombos 0 upper size)[rank]? = some ((lexCombos 0 upper size).get ⟨rank, hlt⟩) :=
    List.getElem?_eq_getElem hlt
  generalize (lexCombos 0 upper size).get ⟨rank, hlt⟩ = t at ht
  have hcomb := combination_core upper size rank t (by omega) h2 ht
  have hrank : rank < 2 ^ 30 := by
    have := choose_lt_of_le upper size (by omega)
    omega
  obtain ⟨todo, rfl⟩ : ∃ todo, size = todo + 1 := ⟨size - 1, by omega⟩
  have ht0 : (lexCombos ((0 : Nat) : Int) (upper - 0) (todo + 1))[rank - 0]? = some t := by
    simpa using ht
  obtain ⟨v1, k, r1, tr, hf, hB⟩ := forLoopLog_spec upper rank (by omega) hrank todo [] 0 0 0 t
    [] (by simp; omega) (Or.inl ⟨rfl, rfl⟩) (by omega) (by omega) ht0
  simp only [List.length_nil, Nat.zero_add, List.nil_append, Nat.cast_zero] at hf hB
  have h1 : ¬ (((todo + 1 : Nat) : Int) = 0) := by omega
  have h3 : ¬ (((todo + 1 : Nat) : Int) < 0) := by omega
  have h4 : Int.toNat ((todo + 1 : Nat) : Int) = todo + 1 := by simp
  have hfst := combinationLog_fst (upper : Int) ((todo + 1 : Nat) : Int) (rank : Int)
  have hlog : combinationLog (upper : Int) ((todo + 1 : Nat) : Int) (rank : Int)
      = (lastStep ((todo + 1 : Nat) : Int) (rank : Int) v1 k >>= fun res => .ok (res, tr)) := by
    unfold combinationLog
    rw [if_neg h1, if_neg h3]
    dsimp only
    rw [h4, Nat.add_sub_cancel, hf, bind_ok]
  rw [hcomb, hlog] at hfst
  refine ⟨t, tr, ?_, hcomb, ?_⟩
  · rw [hlog]
    cases hl : lastStep ((todo + 1 : Nat) : Int) (rank : Int) v1 k with
    | error e =>
      rw [hl, bind_error, map_error] at hfst
      cases hfst
    | ok l =>
      rw [hl, bind_ok, map_ok] at hfst
      rw [bind_ok]
      cases hfst
      rfl
  · intro c hc
    obtain ⟨g1, g2, g3, g4, g5, g6⟩ := hB c hc
    refine ⟨g1, by omega, by omega, g4, g5, g6⟩

theorem combination_binomial_calls_witness :
    ∃ (res : List Int) (tr : List BinomialCall),
      combinationLog ((5 : Nat) : Int) ((3 : Nat) : Int) ((7 : Nat) : Int) = .ok (res, tr) ∧
      combination ((5 : Nat) : Int) ((3 : Nat) : Int) ((7 : Nat) : Int) = .ok res ∧
      ∀ c ∈ tr, 0 ≤ c.pos ∧ c.pos < ((3 : Nat) : Int) - 1 ∧
        c.cand ≤ ((5 : Nat) : Int) - (((3 : Nat) : Int) - c.pos - 1) ∧
        (c.a : Int) = ((5 : Nat) : Int) - c.cand ∧ (c.b : Int) = ((3 : Nat) : Int) - c.pos - 1 ∧
        c.b ≤ c.a :=
  combination_binomial_calls 5 3 7 (by decide) (by decide) (by decide) (by decide)

/-- The log of the run `combination(4, 2, 3)`: two calls at position 0. -/
theorem combinationLog_example :
    combinationLog 4 2 3 = .ok ([1, 2], [BinomialCall.mk 0 1 3 1, BinomialCall.mk 0 2 2 1]) :=
  rfl

/-! ## `antisymmetrise` as a sum over permutations -/

/-- Permuting the factors multiplies the signed sum by the sign of the permutation. -/
theorem permProdSum_comp (K : Type) {R : Type} [Field K] [Ring R] [Algebra K R] {n : Nat}
    (f : Fin n → R) (π : Equiv.Perm (Fin n)) :
    permProdSum K (fun k => f (π k))
      = (((Equiv.Perm.sign π : ℤˣ) : ℤ) : K) • permProdSum K f := by
  unfold permProdSum
  rw [Finset.smul_sum]
  refine Fintype.sum_equiv (Equiv.mulLeft π) _ _ ?_
  intro σ
  have hs : (((Equiv.Perm.sign π : ℤˣ) : ℤ) : K) * (((Equiv.Perm.sign (π * σ) : ℤˣ) : ℤ) : K)
      = (((Equiv.Perm.sign σ : ℤˣ) : ℤ) : K) := by
    rw [Equiv.Perm.sign_mul, Units.val_mul, ← Int.cast_mul, ← mul_assoc, ← Units.val_mul,
      Int.units_mul_self, Units.val_one, one_mul]
  rw [Equiv.coe_mulLeft, smul_smul, hs]
  rfl

/-- Expansion of the signed sum along the first factor. -/
theorem permProdSum_succ (K : Type) {R : Type} [Field K] [Ring R] [Algebra K R] {n : Nat}
    (f : Fin (n + 1) → R) :
    permProdSum K f
      = ∑ p : Fin (n + 1),
          ((-1 : K) ^ (p : Nat)) • (f p * permProdSum K (fun j => f (p.succAbove j))) := by
  have hstep : ∀ p : Fin (n + 1),
      ∑ e : Equiv.Perm (Fin n),
          (((Equiv.Perm.sign (Equiv.Perm.decomposeFin.symm (p, e)) : ℤˣ) : ℤ) : K) •
            (List.ofFn fun k => f (Equiv.Perm.decomposeFin.symm (p, e) k)).prod
        = ((-1 : K) ^ (p : Nat)) • (f p * permProdSum K (fun j => f (p.succAbove j))) := by
    intro p
    refine Fin.cases ?_ (fun i => ?_) p
    · unfold permProdSum
      rw [Finset.mul_sum]
      simp only [Fin.val_zero, pow_zero, one_smul]
      refine Finset.sum_congr rfl fun e _ => ?_
      rw [Equiv.Perm.decomposeFin.symm_sign, if_pos rfl, one_mul, List.ofFn_succ, List.prod_cons,
        Equiv.Perm.decomposeFin_symm_apply_zero, mul_smul_comm]
      simp only [Equiv.Perm.decomposeFin_symm_apply_succ, Equiv.swap_self, Equiv.refl_apply,
        Fin.succAbove_zero]
    · have hA := permProdSum_comp K (fun j => f (i.succ.succAbove j)) (Fin.cycleRange i)
      rw [Fin.sign_cycleRange] at hA
      have hB : permProdSum K (fun j => f (i.succ.succAbove j))
          = ((-1 : K) ^ (i : Nat)) • permProdSum K (fun k => f (i.succ.succAbove (Fin.cycleRange i k))) := by
        rw [hA, smul_smul]
        have : ((-1 : K) ^ (i : Nat)) * ((((-1 : ℤˣ) ^ (i : Nat) : ℤˣ) : ℤ) : K) = 1 := by
          rw [Units.val_pow_eq_pow_val, Units.val_neg, Units.val_one, Int.cast_pow, Int.cast_neg,
            Int.cast_one, ← mul_pow]
          simp
        rw [this, one_smul]
      rw [hB, mul_smul_comm, smul_smul, Fin.val_succ, ← pow_add]
      unfold permProdSum
      rw [Finset.mul_sum, Finset.smul_sum]
      refine Finset.sum_congr rfl fun e _ => ?_
      rw [Equiv.Perm.decomposeFin.symm_sign, if_neg (Fin.succ_ne_zero i), List.ofFn_succ,
        List.prod_cons, Equiv.Perm.decomposeFin_symm_apply_zero, mul_smul_comm, smul_smul]
      simp only [Equiv.Perm.decomposeFin_symm_apply_succ, Fin.succAbove_cycleRange]
      congr 1
      have : (-1 : K) ^ ((i : Nat) + 1 + (i : Nat)) = -1 := by
        have : (i : Nat) + 1 + (i : Nat) = 2 * (i : Nat) + 1 := by omega
        rw [this, pow_succ, pow_mul]
        simp
      rw [this]
      simp
  unfold permProdSum at hstep ⊢
  rw [Finset.univ_perm_fin_succ, Finset.sum_map, ← Finset.univ_product_univ, Finset.sum_product]
  refine Finset.sum_congr rfl fun p _ => ?_
  simp only [Equiv.toEmbedding_apply]
  exact hstep p

theorem permProdSum_one (K : Type) {R : Type} [Field K] [Ring R] [Algebra K R]
    (f : Fin 1 → R) : permProdSum K f = f 0 := by
  rw [permProdSum_succ]
  simp [permProdSum]

theorem permProdSum_two (K : Type) {R : Type} [Field K] [Ring R] [Algebra K R]
    (f : Fin 2 → R) : permProdSum K f = f 0 * f 1 - f 1 * f 0 := by
  rw [permProdSum_succ, Fin.sum_univ_two, permProdSum_one, permProdSum_one]
  simp [sub_eq_add_neg]

/-- Erasing position `i` re-indexes the remaining positions by `Fin.succAbove`. -/
theorem getD_eraseIdx_succAbove (s : List Int) (n : Nat) (i : Fin (n + 1)) (k : Fin n) :
    (s.eraseIdx i).getD k 0 = s.getD (i.succAbove k) 0 := by
  simp only [List.getD_eq_getElem?_getD, List.getElem?_eraseIdx]
  by_cases h : (k : Nat) < i
  · rw [if_pos h, Fin.succAbove_of_castSucc_lt i k (by rw [Fin.lt_def]; exact h)]
    rfl
  · rw [if_neg h, Fin.succAbove_of_le_castSucc i k (by rw [Fin.le_def]; exact Nat.le_of_not_lt h)]
    rfl

theorem asymCoeff_two (K : Type) [Field K] [CharZero K] : asymCoeff K 2 = 1 := by
  unfold asymCoeff
  norm_num [Nat.factorial]

theorem asymCoeff_succ (K : Type) [Field K] (n : Nat) :
    asymCoeff K (n + 1) = asymCoeff K n / (2 * ((n + 1 : Nat) : K)) := by
  unfold asymCoeff
  rw [div_div, Nat.factorial_succ]
  congr 1
  push_cast
  ring

/-- On a sequence of `n + 2` valid indices, `antisymmetrise` returns `c_(n+2)` times the
signed sum over the permutations of the positions. -/
theorem asymValue_permProdSum {K : Type} [Field K] [CharZero K] {dim : Nat}
    (gammas : List (GammaMatrix K dim)) :
    ∀ (n : Nat) (s : List Int), s.length = n + 2 → ValidSeq gammas.length s →
      asymValue gammas s
        = asymCoeff K (n + 2) •
            permProdSum K (fun k : Fin (n + 2) => gammaAt gammas (s.getD k 0)) := by
  intro n
  induction n with
  | zero =>
    intro s hlen hv
    obtain ⟨a, b, rfl⟩ : ∃ a b, s = [a, b] := List.length_eq_two.mp hlen
    rw [asymValue_pair gammas a b hv, asymCoeff_two, one_smul, permProdSum_two]
    rfl
  | succ n ih =>
    intro s hlen hv
    have hterm : ∀ i : Fin (n + 1 + 2),
        ((-1 : K) ^ (i : Nat)) • (gammaAt gammas (s.getD i 0) * asymValue gammas (s.eraseIdx i))
          = asymCoeff K (n + 2) • (((-1 : K) ^ (i : Nat)) •
              (gammaAt gammas (s.getD i 0) *
                permProdSum K (fun j : Fin (n + 2) => gammaAt gammas (s.getD (i.succAbove j) 0)))) := by
      intro i
      have hi : (i : Nat) < s.length := by rw [hlen]; exact i.isLt
      have hl : (s.eraseIdx i).length = n + 2 := by
        rw [List.length_eraseIdx_of_lt hi]; omega
      have he : (fun k : Fin (n + 2) => gammaAt gammas ((s.eraseIdx i).getD k 0))
          = (fun j : Fin (n + 2) => gammaAt gammas (s.getD (i.succAbove j) 0)) := by
        funext k
        rw [getD_eraseIdx_succAbove s (n + 2) i k]
      rw [ih (s.eraseIdx i) hl (hv.eraseIdx i), he, mul_smul_comm, smul_comm]
    have hc : ((((2 * (n + 1 + 2) : Nat) : K))⁻¹) * asymCoeff K (n + 2) = asymCoeff K (n + 1 + 2) := by
      have := asymCoeff_succ K (n + 2)
      rw [this, div_eq_inv_mul]
      push_cast
      ring
    rw [asymValue_rec gammas s hv (by omega), hlen, Finset.sum_range,
      Finset.sum_congr rfl (fun i _ => hterm i), ← Finset.smul_sum, smul_smul, hc,
      permProdSum_succ]

/-- The signed sum written with the entries `s[σ k]` of the sequence. -/
theorem permProdSum_get {K : Type} [Field K] {dim : Nat} (gammas : List (GammaMatrix K dim))
    (s : List Int) :
    ∀ (n : Nat), s.length = n →
      permProdSum K (fun k : Fin n => gammaAt gammas (s.getD k 0))
        = ∑ σ : Equiv.Perm (Fin s.length),
            (((Equiv.Perm.sign σ : ℤˣ) : ℤ) : K) •
              (List.ofFn fun k : Fin s.length => gammaAt gammas (s.get (σ k))).prod := by
  intro n h
  subst h
  unfold permProdSum
  refine Finset.sum_congr rfl fun σ _ => ?_
  congr 3
  funext k
  show gammaAt gammas (s.getD (σ k) 0) = gammaAt gammas (s.get (σ k))
  rw [List.getD_eq_getElem s 0 (σ k).isLt]
  rfl

/-- C16: over a field of characteristic 0, for every sequence `s` of `n ≥ 2` valid indices,
`antisymmetrise gammas s` returns `c_n` times the sum over all permutations `σ` of the
positions `0..n-1` of `sign σ * gammas[s[σ 0]] * ... * gammas[s[σ (n-1)]]`, where
`c_n = 8 / (2^n * n!)`, so that `c_2 = 1` and `c_m = c_(m-1) / (2m)` for `m > 2`. -/
theorem antisymmetrise_perm_sum {K : Type} [Field K] [CharZero K] {dim : Nat}
    (gammas : List (GammaMatrix K dim)) (s : List Int) (hv : ValidSeq gammas.length s)
    (hn : 2 ≤ s.length) :
    antisymmetrise gammas s
        = .ok (asymCoeff K s.length •
            ∑ σ : Equiv.Perm (Fin s.length),
              (((Equiv.Perm.sign σ : ℤˣ) : ℤ) : K) •
                (List.ofFn fun k : Fin s.length => gammaAt gammas (s.get (σ k))).prod) ∧
      asymCoeff K 2 = 1 ∧
      ∀ m : Nat, 2 < m → asymCoeff K m = asymCoeff K (m - 1) / (2 * (m : K)) := by
  refine ⟨?_, asymCoeff_two K, ?_⟩
  · obtain ⟨n, hlen⟩ : ∃ n, s.length = n + 2 := ⟨s.length - 2, by omega⟩
    rw [antisymmetrise_total gammas s.length s rfl (by omega) hv,
      asymValue_permProdSum gammas n s hlen hv, permProdSum_get gammas s (n + 2) hlen]
    have hc : asymCoeff K (n + 2) = asymCoeff K s.length := by rw [hlen]
    rw [hc]
  · intro m hm
    obtain ⟨j, rfl⟩ : ∃ j, m = j + 1 := ⟨m - 1, by omega⟩
    rw [Nat.add_sub_cancel]
    exact asymCoeff_succ K j

theorem antisymmetrise_perm_sum_witness :
    antisymmetrise ([1, 2, 3] : List (GammaMatrix ℚ 1)) [0, 1, 2]
        = .ok (asymCoeff ℚ ([0, 1, 2] : List Int).length •
            ∑ σ : Equiv.Perm (Fin ([0, 1, 2] : List Int).length),
              (((Equiv.Perm.sign σ : ℤˣ) : ℤ) : ℚ) •
                (List.ofFn fun k : Fin ([0, 1, 2] : List Int).length =>
                  gammaAt ([1, 2, 3] : List (GammaMatrix ℚ 1))
                    (([0, 1, 2] : List Int).get (σ k))).prod) ∧
      asymCoeff ℚ 2 = 1 ∧
      ∀ m : Nat, 2 < m → asymCoeff ℚ m = asymCoeff ℚ (m - 1) / (2 * (m : ℚ)) :=
  antisymmetrise_perm_sum [1, 2, 3] [0, 1, 2] ⟨by decide, by decide⟩ (by decide)

end NCG
